import Mathlib

/-!
Verification of the socker SSH-multiplexing library (Go) against its
natural-language specification.  Each Go function relevant to the claims is
shallowly embedded as an executable Lean definition; machine integers are
modelled as `Int`/`Nat`, channels as explicit token counters, fallible code as
`Except`/`Option`, and stateful code as explicit state passing.
-/

namespace Socker

/-! ## Session pool (`session.go`: `newSessionPool`, `Take`, `put`,
`session.Release`, `session.Drop`)

The Go pool holds `size : int` and a buffered channel `c` of unit tokens.
`c` is modelled as `Option Chan` (`none` = nil channel, which after
construction means "unbounded" and after `Close` means "closed"), where a
`Chan` records its capacity and the number of tokens currently buffered.
A blocking receive on an empty open channel is modelled by the explicit
outcome `TakeResult.blocked`. -/

/-- Session ticket states (Go constants `sessionActive`, `sessionIdle`,
`sessionInvalid`). -/
inductive SessionStatus where
  | active
  | idle
  | invalid
  deriving DecidableEq, Repr

/-- A session ticket: Go `session` (the `pool` back-pointer is implicit; the
pool a ticket belongs to is passed explicitly where needed). -/
structure Session where
  status : SessionStatus
  deriving DecidableEq, Repr

/-- The buffered channel `chan struct{}`: capacity and current token count. -/
structure Chan where
  cap : Nat
  tokens : Nat
  deriving DecidableEq, Repr

/-- Go `sessionPool`: `size` and the channel `c` (`none` models a nil `c`). -/
structure SessionPool where
  size : Int
  c : Option Chan
  deriving DecidableEq, Repr

/-- Go `initPoolChan(size)`: a channel of capacity `size` pre-filled with
`size` tokens. -/
def initPoolChan (size : Nat) : Chan :=
  { cap := size, tokens := size }

/-- Go `newSessionPool(size)`: `size == 0` is replaced by the default 10;
a channel is allocated only when the resulting size is positive. -/
def newSessionPool (size : Int) : SessionPool :=
  let size := if size = 0 then 10 else size
  let c : Option Chan := if size > 0 then some (initPoolChan size.toNat) else none
  { size := size, c := c }

/-- Go `sessionPool.Close`: no-op when `size <= 0`; otherwise the channel is
closed and set to nil. -/
def SessionPool.close (p : SessionPool) : SessionPool :=
  if p.size ≤ 0 then p else { p with c := none }

/-- Outcome of `sessionPool.Take`: a fresh ticket with the updated pool,
a block on the empty channel, or `(nil, false)` when the pool is closed. -/
inductive TakeResult where
  | ticket (s : Session) (p : SessionPool)
  | blocked
  | unavailable
  deriving DecidableEq, Repr

/-- Go `sessionPool.Take`: unbounded pools always hand out a fresh Active
ticket; bounded pools receive a token from the channel (blocking when it is
empty) and fail when the channel is nil (pool closed). -/
def SessionPool.take (p : SessionPool) : TakeResult :=
  if p.size ≤ 0 then
    .ticket { status := .active } p
  else
    match p.c with
    | none => .unavailable
    | some ch =>
        if ch.tokens > 0 then
          .ticket { status := .active } { p with c := some { ch with tokens := ch.tokens - 1 } }
        else
          .blocked

/-- Go `sessionPool.put`: `true` without touching the channel when the pool is
unbounded; `false` when the channel is nil; otherwise a non-blocking send that
is dropped when the channel is full. -/
def SessionPool.put (p : SessionPool) : SessionPool × Bool :=
  if p.size ≤ 0 then (p, true)
  else
    match p.c with
    | none => (p, false)
    | some ch =>
        if ch.tokens < ch.cap then ({ p with c := some { ch with tokens := ch.tokens + 1 } }, true)
        else (p, false)

/-- Go `session.Release`: a compare-and-swap Active→Idle; only on success is a
token returned to the pool via `put`. Returns the ticket, the pool, and
whether `put` was invoked. -/
def Session.release (s : Session) (p : SessionPool) : Session × SessionPool × Bool :=
  if s.status = .active then ({ status := .idle }, (p.put).1, true)
  else (s, p, false)

/-- Go `session.Drop`: a compare-and-swap Active→Invalid; no token is returned
in either case. Returns the ticket, the (unchanged) pool, and whether the swap
succeeded. -/
def Session.drop (s : Session) (p : SessionPool) : Session × SessionPool × Bool :=
  if s.status = .active then ({ status := .invalid }, p, true)
  else (s, p, false)

/-! ## Connection reference counting (`ssh.go`: `SSH.Close`, `SSH.NopClose`)

`NewSSH` allocates a fresh shared counter starting at 0 while the owning
handle is already open.  `NopClose` increments the shared counter and returns
a sibling handle flagged `nopClose`; `Close` on such a handle only decrements
the counter, while `Close` on the owning handle leaves its own counter
untouched (it decrements the *gate's* counter when a gate is present and tears
down the session pool, SFTP client and transport).  The state below tracks the
shared counter together with the number of handles of each kind that are
still open; resource teardown is abstracted to the `ownerOpen` flag. -/

structure RefState where
  /-- The shared `_refs` counter. -/
  refs : Int
  /-- Whether the originally-owning handle is still open. -/
  ownerOpen : Bool
  /-- Number of non-owning (`nopClose`) handles currently open.  `Int` so the
  step function is total; well-formed traces keep it nonnegative. -/
  nopOpen : Int
  /-- Whether the connection was dialed through a gate. -/
  hasGate : Bool
  /-- The gate's shared counter (relevant only when `hasGate`). -/
  gateRefs : Int
  deriving DecidableEq, Repr

/-- State right after `NewSSH`: `var refs int32` starts the shared counter at
zero with the owning handle open and no non-owning handles. -/
def newSSHState (hasGate : Bool) (gateRefs : Int) : RefState :=
  { refs := 0, ownerOpen := true, nopOpen := 0, hasGate := hasGate, gateRefs := gateRefs }

/-- The handle operations visible in `SSH.Close`/`SSH.NopClose`. -/
inductive RefEvent where
  | nopClose
  | closeNonOwning
  | closeOwner
  deriving DecidableEq, Repr

/-- One step of the handle lifecycle, mirroring `NopClose` (`incrRefs` and a
clone with the `nopClose` flag) and `Close` (a `nopClose` handle runs
`decrRefs` and returns; the owning handle decrements the gate's counter and
closes its resources without touching its own counter). -/
def refStep (s : RefState) : RefEvent → RefState
  | .nopClose => { s with refs := s.refs + 1, nopOpen := s.nopOpen + 1 }
  | .closeNonOwning => { s with refs := s.refs - 1, nopOpen := s.nopOpen - 1 }
  | .closeOwner =>
      { s with ownerOpen := false,
               gateRefs := if s.hasGate then s.gateRefs - 1 else s.gateRefs }

/-- Run a trace of handle events. -/
def refRun (s : RefState) : List RefEvent → RefState
  | [] => s
  | e :: es => refRun (refStep s e) es

/-- The count the claim asserts the shared counter equals: owning handles
still open plus non-owning handles still open. -/
def claimedHandleCount (s : RefState) : Int :=
  (if s.ownerOpen then 1 else 0) + s.nopOpen

/-! ## Chained error latch (`ssh.go`: `SSH.checkError`, `SSH.saveError`,
`SSH.ClearError`, and the operation preambles of `Rcmd`, `Lcmd`, `sync`
(hence `Put`/`Get`), `writeFile`, `readFile`, `readdir`, `remove`, `exists`)

In the chained style the connection holds `err *error` (installed by
`ReserveError`).  Every command/file operation begins with
`err := s.checkError(); if err != nil { return s.saveError(err) }` — when the
latch already holds an error the operation returns it without performing any
I/O, and `saveError` re-stores that same error, leaving the latch unchanged.
Only `ClearError` resets the cell to nil.  Errors are abstracted as `Nat`;
the latch cell (assumed installed) is `Option Nat` (`none` = no error
latched).  An operation's would-be interaction with the outside world is an
oracle `Except Nat Unit`; the events an execution actually performs are
collected in a trace. -/

/-- The command/file operations of the chained style that begin with the
`checkError` preamble. -/
inductive ChainOp where
  | rcmd
  | lcmd
  | put
  | get
  | rwriteFile
  | rreadFile
  | rreaddir
  | rremove
  | rexists
  deriving DecidableEq, Repr

/-- One chained operation: with the latch set it is a no-op returning the
latched error (as `Rcmd` etc. do via `saveError(err)` on the already-latched
value); with the latch clear it performs its I/O (recorded in the trace) and
latches the first error the I/O reports (`saveError`). -/
def chainStep (latch : Option Nat) (op : ChainOp) (io : Except Nat Unit) :
    Option Nat × List ChainOp :=
  match latch with
  | some e => (some e, [])
  | none =>
      match io with
      | .ok _ => (none, [op])
      | .error e => (some e, [op])

/-- Run a sequence of chained operations, collecting the I/O actually
performed. -/
def chainRun (latch : Option Nat) : List (ChainOp × Except Nat Unit) →
    Option Nat × List ChainOp
  | [] => (latch, [])
  | (op, io) :: rest =>
      let (latch', tr) := chainStep latch op io
      let (latch'', trs) := chainRun latch' rest
      (latch'', tr ++ trs)

/-- Go `SSH.ClearError`: `*s.err = nil`. -/
def clearError (_latch : Option Nat) : Option Nat := none

/-! ## Directory listing (`ssh.go`: `byName`, `SSH.readdir`, `Lreaddir`,
`Rreaddir`)

`readdir` opens the path, calls `Readdir(n)` on the handle, and sorts the
resulting slice with `sort.Sort(byName(list))` where `byName.Less` compares
`Name()` with `<`.  The filesystem interaction is abstracted as the oracle
result of `f.Readdir(n)`; `sort.Sort` (an unstable comparison sort whose
output is ordered by `Less`) is embedded as an insertion sort over the same
ordering. -/

/-- The slice of `os.FileInfo` entries, abstracted to the data `byName`
inspects. -/
structure FileInfo where
  name : String
  deriving DecidableEq, Repr

/-- `byName.Less i j`: `f[i].Name() < f[j].Name()`. -/
def byNameLess (a b : FileInfo) : Prop := a.name < b.name

/-- The non-strict ordering a `sort.Sort byName` output satisfies. -/
def byNameLe (a b : FileInfo) : Prop := a.name ≤ b.name

instance : DecidableRel byNameLe := fun a b => by
  unfold byNameLe; infer_instance

instance : IsTotal FileInfo byNameLe := ⟨fun a b => le_total a.name b.name⟩

instance : IsTrans FileInfo byNameLe := ⟨fun _ _ _ => le_trans⟩

/-- `sort.Sort(byName list)`: a comparison sort producing a permutation of
the input ordered by `byName.Less`, embedded as an insertion sort over the
induced non-strict order. -/
def sortByName (l : List FileInfo) : List FileInfo := List.insertionSort byNameLe l

/-- Go `SSH.readdir(fs, path, n)` of the chained-error version: the
`checkError` preamble, then `fs.Open` + `Readdir(n)` (abstracted as the
oracle `listing`), then the sort.  `Lreaddir`/`Rreaddir` delegate here with
the local/remote filesystem and resolved path. -/
def readdir (latch : Option Nat) (listing : Except Nat (List FileInfo)) :
    Except Nat (List FileInfo) :=
  match latch with
  | some e => .error e
  | none =>
      match listing with
      | .error e => .error e
      | .ok list => .ok (sortByName list)

/-! ## Background command composition (`ssh.go`: `SSH.cmdBg`, also
`cmdStrBg` in the sibling version, both byte-identical in behaviour) -/

/-- Go `SSH.cmdBg(cmd, stdout, stderr)`: defaults `stdout` to `"nohup.out"`
when empty, then defaults `stderr` to `"&1"` when empty or equal to the
(already defaulted) `stdout`, and wraps the command for `nohup`. -/
def cmdBg (cmd stdout stderr : String) : String :=
  let stdout := if stdout = "" then "nohup.out" else stdout
  let stderr := if stderr = "" ∨ stderr = stdout then "&1" else stderr
  "nohup " ++ cmd ++ " >" ++ stdout ++ " 2>" ++ stderr ++ " </dev/null &"

/-! ## Matchers and the mux (`matcher.go`: `createMatcher`, `matchPlain`,
`matchIPNet`; `mux.go`: `NewMux`, `Mux.AgentGate`)

`matchIPNet` delegates to Go's `net.ParseCIDR`, `net.SplitHostPort` and
`net.ParseIP`; those library routines are embedded below following the Go
standard library sources (`dtoi`, `parseIPv4`, `CIDRMask`, byte-wise
`IPNet.Contains`).  `ParseIP` dispatches on the first `'.'` or `':'` it sees;
textual IPv6 addresses are modelled as unparsed (`none`) — an IPv6 address is
never inside an IPv4-masked network (`Contains` rejects the length mismatch),
except 4-mapped `::ffff:a.b.c.d` spellings, which no configuration or address
in the repository or its tests uses.  The `regexp` rule kind would need a
full regular-expression engine and is likewise left unregistered here; no
input below mentions it. -/

/-- First index of `c` in `l` (Go `byteIndex`/`strings.IndexByte`, `none` for
`-1`). -/
def byteIndex (l : List Char) (c : Char) : Option Nat :=
  l.findIdx? (fun d => d = c)

/-- Last index of `c` in `l` (Go `last`). -/
def lastIndex (l : List Char) (c : Char) : Option Nat :=
  match byteIndex l.reverse c with
  | none => none
  | some i => some (l.length - 1 - i)

/-- Go `net.SplitHostPort` (host, port on success; `none` for any of its
errors: missing port, too many colons, bad brackets). -/
def splitHostPort (hostport : List Char) : Option (List Char × List Char) :=
  match lastIndex hostport ':' with
  | none => none
  | some i =>
      match hostport with
      | '[' :: _ =>
          match byteIndex hostport ']' with
          | none => none
          | some endb =>
              if endb + 1 = hostport.length then none
              else if endb + 1 = i then
                let host := (hostport.take endb).drop 1
                let j := 1
                let k := endb + 1
                if (byteIndex (hostport.drop j) '[').isSome then none
                else if (byteIndex (hostport.drop k) ']').isSome then none
                else some (host, hostport.drop (i + 1))
              else none
      | _ =>
          let host := hostport.take i
          if (byteIndex host ':').isSome then none
          else if (byteIndex hostport '[').isSome then none
          else if (byteIndex hostport ']').isSome then none
          else some (host, hostport.drop (i + 1))

/-- Go `net.dtoi(s)`: decimal prefix of `s` saturating at `0xFFFFFF`;
returns `(value, chars consumed, ok)`. -/
def dtoiGo : List Char → Nat → Nat → Nat × Nat × Bool
  | [], n, i => if i = 0 then (0, 0, false) else (n, i, true)
  | c :: rest, n, i =>
      if '0' ≤ c ∧ c ≤ '9' then
        let n' := n * 10 + (c.toNat - '0'.toNat)
        if n' ≥ 0xFFFFFF then (0xFFFFFF, i, false)
        else dtoiGo rest n' (i + 1)
      else if i = 0 then (0, 0, false) else (n, i, true)

/-- Go `net.dtoi` from the start of `s`. -/
def dtoi (s : List Char) : Nat × Nat × Bool := dtoiGo s 0 0

/-- An IPv4 address as its four bytes. -/
structure IPv4 where
  b0 : Nat
  b1 : Nat
  b2 : Nat
  b3 : Nat
  deriving DecidableEq, Repr

/-- One dotted-quad field: `dtoi` must succeed with a value `<= 0xFF`;
returns the value and the rest of the input. -/
def parseIPv4Field (s : List Char) : Option (Nat × List Char) :=
  let (n, c, ok) := dtoi s
  if ok ∧ n ≤ 0xFF then some (n, s.drop c) else none

/-- Go `net.parseIPv4`: four `dtoi` fields joined by `'.'`, consuming the
whole string. -/
def parseIPv4 (s : List Char) : Option IPv4 :=
  match parseIPv4Field s with
  | none => none
  | some (b0, s) =>
      match s with
      | '.' :: s =>
          match parseIPv4Field s with
          | none => none
          | some (b1, s) =>
              match s with
              | '.' :: s =>
                  match parseIPv4Field s with
                  | none => none
                  | some (b2, s) =>
                      match s with
                      | '.' :: s =>
                          match parseIPv4Field s with
                          | none => none
                          | some (b3, s) =>
                              if s = [] then some ⟨b0, b1, b2, b3⟩ else none
                      | _ => none
              | _ => none
      | _ => none

/-- Go `net.ParseIP`: scans for the first `'.'` or `':'`; a `'.'` first means
dotted-quad IPv4.  A `':'` first means textual IPv6, modelled as unparsed
(see the section comment). -/
def parseIP (s : List Char) : Option IPv4 :=
  match s.find? (fun c => c = '.' ∨ c = ':') with
  | some '.' => parseIPv4 s
  | _ => none

/-- One byte of Go `net.CIDRMask(ones, 32)` given the bits still to set;
returns the byte and the remaining bit count. -/
def cidrMaskByte (n : Nat) : Nat × Nat :=
  if n ≥ 8 then (0xFF, n - 8) else (0xFF - (0xFF >>> n), 0)

/-- Go `net.CIDRMask(ones, 32)` as four bytes. -/
def cidrMask (ones : Nat) : IPv4 :=
  let (m0, n) := cidrMaskByte ones
  let (m1, n) := cidrMaskByte n
  let (m2, n) := cidrMaskByte n
  let (m3, _) := cidrMaskByte n
  ⟨m0, m1, m2, m3⟩

/-- Byte-wise `ip AND mask` (Go `IP.Mask`). -/
def maskIP (ip mask : IPv4) : IPv4 :=
  ⟨ip.b0 &&& mask.b0, ip.b1 &&& mask.b1, ip.b2 &&& mask.b2, ip.b3 &&& mask.b3⟩

/-- An IPv4 `net.IPNet`: the (already masked) network number and the mask. -/
structure IPNet where
  ip : IPv4
  mask : IPv4
  deriving DecidableEq, Repr

/-- Go `net.ParseCIDR` restricted to IPv4 networks: split at the first `'/'`,
parse the address as dotted-quad, parse the prefix length with `dtoi`
(consuming the whole suffix, at most 32), and mask the address. -/
def parseCIDR (s : List Char) : Option IPNet :=
  match byteIndex s '/' with
  | none => none
  | some i =>
      let addr := s.take i
      let maskStr := s.drop (i + 1)
      match parseIPv4 addr with
      | none => none
      | some ip =>
          let (n, c, ok) := dtoi maskStr
          if ok ∧ c = maskStr.length ∧ n ≤ 32 then
            let m := cidrMask n
            some { ip := maskIP ip m, mask := m }
          else none

/-- Go `IPNet.Contains` for an IPv4 network and an IPv4 address: byte-wise
comparison under the mask. -/
def ipnetContains (net : IPNet) (ip : IPv4) : Bool :=
  net.ip.b0 &&& net.mask.b0 = ip.b0 &&& net.mask.b0 ∧
  net.ip.b1 &&& net.mask.b1 = ip.b1 &&& net.mask.b1 ∧
  net.ip.b2 &&& net.mask.b2 = ip.b2 &&& net.mask.b2 ∧
  net.ip.b3 &&& net.mask.b3 = ip.b3 &&& net.mask.b3

/-- The closure Go `matchIPNet` returns: strip a port when the address
contains `':'` (failing the match when `SplitHostPort` errors or yields an
empty host), parse the remaining host as an IP, and test membership. -/
def ipnetMatcher (net : IPNet) (addr : String) : Bool :=
  let a := addr.data
  let host? : Option (List Char) :=
    if (byteIndex a ':').isSome then
      match splitHostPort a with
      | none => none
      | some (host, _) => if host = [] then none else some host
    else some a
  match host? with
  | none => false
  | some host =>
      match parseIP host with
      | none => false
      | some ip => ipnetContains net ip

/-- Go `matchIPNet(cidr)`: parse the CIDR, then return the matcher closure
(`none` models the builder returning an error). -/
def matchIPNet (cidr : String) : Option (String → Bool) :=
  match parseCIDR cidr.data with
  | none => none
  | some net => some (ipnetMatcher net)

/-- Go `matchPlain(addr)`: string equality with the pattern. -/
def matchPlain (pattern : String) : String → Bool :=
  fun dst => pattern = dst

/-- The process-wide builder registry after `init` (`getMatcherBuilder`),
restricted to the kinds the development exercises; `regexp` is not embedded
(see the section comment). -/
def getMatcherBuilder (name : String) : Option (String → Option (String → Bool)) :=
  if name = "plain" then some (fun p => some (matchPlain p))
  else if name = "ipnet" then some matchIPNet
  else none

/-- Go `createMatcher(addr)` (the two-result variant `mux.go` compiles
against): split at the first `':'` with default kind `plain`, look up the
builder, and build. -/
def createMatcher (addr : String) : Option (String → Bool) :=
  let (builderName, matchAddr) :=
    match byteIndex addr.data ':' with
    | none => ("plain", addr)
    | some i => (String.mk (addr.data.take i), String.mk (addr.data.drop (i + 1)))
  match getMatcherBuilder builderName with
  | none => none
  | some builder => builder matchAddr

/-- The compiled gate list of `NewMux`: for each `AgentGates` entry (given
with the map's iteration order, which Go leaves unspecified), skip entries
with an empty pattern or value, else compile the pattern; any build error
aborts.  `NewMux` performs no sorting and stores no priorities. -/
def newMuxGates : List (String × String) → Option (List ((String → Bool) × String))
  | [] => some []
  | (addr, gate) :: rest =>
      if addr ≠ "" ∧ gate ≠ "" then
        match createMatcher addr with
        | none => none
        | some m => (newMuxGates rest).map (fun gs => (m, gate) :: gs)
      else newMuxGates rest

/-- Go `Mux.AgentGate(addr)`: the value of the first entry, in compiled list
order, whose matcher accepts `addr`; `""` when none matches. -/
def agentGate (gates : List ((String → Bool) × String)) (addr : String) : String :=
  match gates.find? (fun g => g.1 addr) with
  | some g => g.2
  | none => ""

/-- The built-in rule priorities (`RegisterMatchRule` calls in the registry's
`init`; also stated by the spec): `plain`=100, `regexp`=50, `ipnet`=0. -/
def builtinPriority (name : String) : Int :=
  if name = "plain" then 100
  else if name = "regexp" then 50
  else 0

/-! ## Virtual path engine (`filepath.go`: `virtualFilepath.clean`,
`IsPathSeparator`, `FromSlash`, `Split`, `volumeNameLen`, `lazybuf`)

The engine is parameterised by `(IsUnix, PathSeparator)`; `IsPathSeparator`
recognises only the configured separator byte.  `clean` follows the standard
lexical algorithm over a `lazybuf`; the lazy copy-on-write buffer is an
allocation optimisation whose value equals an eagerly written buffer, so the
buffer is embedded as the list of written characters.  Strings are handled as
their character lists. -/

/-- Go `virtualFilepath.IsPathSeparator(c)`: `f.PathSeparator == c`. -/
def isSep (sep c : Char) : Bool := sep = c

/-- Go `virtualFilepath.FromSlash`: identity when the separator is `'/'`,
otherwise every `'/'` becomes the separator. -/
def vFromSlash (sep : Char) (l : List Char) : List Char :=
  if sep = '/' then l else l.map (fun c => if c = '/' then sep else c)

/-- Go `virtualFilepath.windowsIsSlash`. -/
def windowsIsSlash (c : Char) : Bool := c = '\\' ∨ c = '/'

/-- The inner share-name scan of `windowsVolumeNameLen`
(`for ; n < l; n++ { if isSlash(path[n]) { break } }; return n`).  The loop
advances `n` towards `l` each iteration; the explicit bound `gas`
(instantiated with `l` by the caller, always sufficient) makes the recursion
structural. -/
def wvnShareEnd (p : List Char) (l : Nat) : Nat → Nat → Nat
  | 0, n => n
  | gas + 1, n =>
      if n < l then
        if windowsIsSlash (p.getD n ' ') then n else wvnShareEnd p l gas (n + 1)
      else n

/-- The server-name scan of `windowsVolumeNameLen` (the outer `for` loop; a
`break` falls through to `return 0`).  `gas` as in `wvnShareEnd`. -/
def wvnServerLoop (p : List Char) (l : Nat) : Nat → Nat → Nat
  | 0, _ => 0
  | gas + 1, n =>
      if n < l - 1 then
        if windowsIsSlash (p.getD n ' ') then
          if ¬ windowsIsSlash (p.getD (n + 1) ' ') then
            if p.getD (n + 1) ' ' = '.' then 0
            else wvnShareEnd p l l (n + 1)
          else 0
        else wvnServerLoop p l gas (n + 1)
      else 0

/-- Go `virtualFilepath.windowsVolumeNameLen`: drive-letter (`C:`) and UNC
(`\\server\share`) volume prefixes. -/
def windowsVolumeNameLen (p : List Char) : Nat :=
  if p.length < 2 then 0
  else if p.getD 1 ' ' = ':' ∧
          (('a' ≤ p.getD 0 ' ' ∧ p.getD 0 ' ' ≤ 'z') ∨
           ('A' ≤ p.getD 0 ' ' ∧ p.getD 0 ' ' ≤ 'Z')) then 2
  else if p.length ≥ 5 ∧ windowsIsSlash (p.getD 0 ' ') ∧ windowsIsSlash (p.getD 1 ' ') ∧
          ¬ windowsIsSlash (p.getD 2 ' ') ∧ p.getD 2 ' ' ≠ '.' then
    wvnServerLoop p p.length p.length 3
  else 0

/-- Go `virtualFilepath.volumeNameLen`. -/
def vVolumeNameLen (isUnix : Bool) (p : List Char) : Nat :=
  if isUnix then 0 else windowsVolumeNameLen p

/-- `dropWhile` never lengthens a list (termination measure for the scanning
loop below). -/
theorem length_dropWhile_le (q : Char → Bool) (l : List Char) :
    (l.dropWhile q).length ≤ l.length := by
  induction l with
  | nil => simp [List.dropWhile]
  | cons a l ih =>
      by_cases h : q a
      · simpa [List.dropWhile, h] using Nat.le_succ_of_le ih
      · simp [List.dropWhile, h]

/-- The `..`-backtracking scan inside `clean`
(`for out.w > dotdot && !IsPathSeparator(out.index(out.w)) { out.w-- }`);
returns the final write position. -/
def btLoop (sep : Char) (out : List Char) (dotdot : Nat) : Nat → Nat
  | 0 => 0
  | w + 1 =>
      if dotdot < w + 1 ∧ ¬ isSep sep (out.getD (w + 1) sep) then btLoop sep out dotdot w
      else w + 1

/-- The main scanning loop of `clean` over the volume-stripped path, carrying
the written buffer and the `dotdot` barrier.  Every iteration consumes at
least one byte of the remaining path, so the explicit bound `gas`
(instantiated with the path length by `vCleanList`, always sufficient) makes
the recursion structural. -/
def cleanLoopF (sep : Char) (rooted : Bool) : Nat → List Char → List Char → Nat → List Char
  | 0, _, out, _ => out
  | gas + 1, input, out, dotdot =>
      match input with
      | [] => out
      | c :: rest =>
          if isSep sep c then
            -- empty path element
            cleanLoopF sep rooted gas rest out dotdot
          else if c = '.' ∧ (rest = [] ∨ isSep sep (rest.headD sep)) then
            -- `.` element
            cleanLoopF sep rooted gas rest out dotdot
          else if c = '.' ∧ rest.headD sep = '.' ∧
                  (rest.tail = [] ∨ isSep sep (rest.tail.headD sep)) then
            -- `..` element: remove to last separator
            if dotdot < out.length then
              cleanLoopF sep rooted gas rest.tail
                (out.take (btLoop sep out dotdot (out.length - 1))) dotdot
            else if ¬ rooted then
              let out' := (if out.length > 0 then out ++ [sep] else out) ++ ['.', '.']
              cleanLoopF sep rooted gas rest.tail out' out'.length
            else
              cleanLoopF sep rooted gas rest.tail out dotdot
          else
            -- real path element, preceded by a separator when needed
            let out1 := if (rooted ∧ out.length ≠ 1) ∨ (¬ rooted ∧ out.length ≠ 0) then
                          out ++ [sep]
                        else out
            cleanLoopF sep rooted gas (rest.dropWhile (fun d => ¬ isSep sep d))
              (out1 ++ c :: rest.takeWhile (fun d => ¬ isSep sep d)) dotdot

/-- The scanning loop with its bound instantiated to the remaining length. -/
def cleanLoop (sep : Char) (rooted : Bool) (input out : List Char) (dotdot : Nat) : List Char :=
  cleanLoopF sep rooted input.length input out dotdot

/-- Go `virtualFilepath.clean` on character lists: strip the volume, handle
the empty remainder, run the scanning loop (seeding `out` with the separator
when rooted), turn an empty result into `"."`, and apply `FromSlash` to the
volume plus the written buffer (`lazybuf.string`). -/
def vCleanList (isUnix : Bool) (sep : Char) (p : List Char) : List Char :=
  let volLen := vVolumeNameLen isUnix p
  let path := p.drop volLen
  if path = [] then
    if volLen > 1 ∧ p.getD 1 ' ' ≠ ':' then
      -- should be UNC
      vFromSlash sep p
    else p ++ ['.']
  else
    let rooted := isSep sep (path.headD sep)
    let res :=
      if rooted then cleanLoop sep true path.tail [sep] 1
      else cleanLoop sep false path [] 0
    let res := if res = [] then ['.'] else res
    vFromSlash sep (p.take volLen ++ res)

/-- Go `virtualFilepath.Clean` on strings. -/
def vClean (isUnix : Bool) (sep : Char) (s : String) : String :=
  String.mk (vCleanList isUnix sep s.data)

/-- The index scan of Go `virtualFilepath.Split`
(`for i >= len(vol) && !IsPathSeparator(path[i]) { i-- }`), tracked as `i+1`. -/
def vSplitPos (sep : Char) (p : List Char) (volLen : Nat) : Nat → Nat
  | 0 => 0
  | j + 1 => if volLen ≤ j ∧ ¬ isSep sep (p.getD j sep) then vSplitPos sep p volLen j
             else j + 1

/-- Go `virtualFilepath.Split`: `(path[:i+1], path[i+1:])` around the last
separator at or after the volume prefix. -/
def vSplit (isUnix : Bool) (sep : Char) (s : String) : String × String :=
  let p := s.data
  let volLen := vVolumeNameLen isUnix p
  let j := vSplitPos sep p volLen p.length
  (String.mk (p.take j), String.mk (p.drop j))

/-! ## Single-file transfer (`ssh.go`: `SSH.syncFile`, `SSH.openFile`,
`SSH.checkIsDir`, reached from `Put`/`Get` via `sync` for non-directories)

The destination filesystem `rfs` is abstracted as an oracle giving the
outcome of each call `syncFile` makes, and the execution is embedded as the
list of filesystem events it performs together with its result.  `CmdSeperator`
aside, the package variable `CopyBufferSize` keeps its default `1024*1024`.
Flag constants carry their Linux `os` values
(`O_WRONLY=0x1`, `O_CREATE=0x40`, `O_TRUNC=0x200`). -/

/-- Errors visible in `syncFile`: `ErrIsDir` and opaque filesystem errors. -/
inductive SyncErr where
  | isDir
  | fsErr (code : Nat)
  deriving DecidableEq, Repr

/-- Outcome of `io.CopyBuffer`. -/
inductive CopyOutcome where
  | ok
  | eof
  | err (code : Nat)
  deriving DecidableEq, Repr

/-- Filesystem operations `syncFile` can issue on the destination side. -/
inductive FsEvent where
  | remove (path : String)
  | mkdirAll (dir : String) (perm : Nat)
  | openFile (path : String) (flag : Nat) (perm : Nat)
  | fstat
  | copy (bufsize : Int)
  deriving DecidableEq, Repr

/-- `os.O_CREATE | os.O_WRONLY | os.O_TRUNC`. -/
def oCreateWronlyTrunc : Nat := 0x40 ||| 0x1 ||| 0x200

/-- Go package variable `CopyBufferSize` (default `1024 * 1024`). -/
def copyBufferSize : Int := 1024 * 1024

/-- The path-engine operations `syncFile` uses from `rfs.Filepath()`. -/
structure FilepathOps where
  split : String → String × String
  fromSlash : String → String

/-- The unix virtual path engine's operations (`virtualFilepath` with
`IsUnix`, separator `'/'`). -/
def unixFilepathOps : FilepathOps :=
  { split := vSplit true '/', fromSlash := fun s => String.mk (vFromSlash '/' s.data) }

/-- One `syncFile` call: the oracle fixes the outcome of every filesystem
call it can make (`none` models a nil Go error). -/
structure SyncOracle where
  fpath : FilepathOps
  rpath : String
  /-- `stat.Size()` of the source file (an `int64`). -/
  statSize : Int
  /-- `stat.Mode()` of the source file. -/
  statMode : Nat
  removeErr : Option Nat
  /-- `rfs.IsNotExist` on `removeErr` when it is set. -/
  removeIsNotExist : Bool
  mkdirAllErr : Option Nat
  openErr : Option Nat
  fstatErr : Option Nat
  fstatIsDir : Bool
  copyOutcome : CopyOutcome

/-- Go `SSH.openFile` + `checkIsDir` on the oracle: `fs.OpenFile`, then
`fd.Stat` whose error is swallowed; a directory stat yields `ErrIsDir`. -/
def openFileStep (o : SyncOracle) : Option SyncErr × List FsEvent :=
  match o.openErr with
  | some e => (some (.fsErr e), [.openFile o.rpath oCreateWronlyTrunc o.statMode])
  | none =>
      let evs := [FsEvent.openFile o.rpath oCreateWronlyTrunc o.statMode, FsEvent.fstat]
      match o.fstatErr with
      | some _ => (none, evs)
      | none => if o.fstatIsDir then (some .isDir, evs) else (none, evs)

/-- Go `SSH.syncFile(rfs, rpath, fd, stat)`: remove the destination
(tolerating not-found), `MkdirAll` its directory when non-empty, open with
`O_CREATE|O_WRONLY|O_TRUNC` and the source's mode, and `io.CopyBuffer` with a
buffer of `stat.Size()` capped at `CopyBufferSize` and floored (at zero) to
one byte; `io.EOF` from the copy is success.  Returns the error and the list
of filesystem events performed, in order. -/
def syncFile (o : SyncOracle) : Option SyncErr × List FsEvent :=
  let ev0 := [FsEvent.remove o.rpath]
  match o.removeErr with
  | some e =>
      if ¬ o.removeIsNotExist then (some (.fsErr e), ev0)
      else syncFileAfterRemove o ev0
  | none => syncFileAfterRemove o ev0
where
  syncFileAfterRemove (o : SyncOracle) (acc : List FsEvent) : Option SyncErr × List FsEvent :=
    let dir := o.fpath.fromSlash (o.fpath.split o.rpath).1
    if dir ≠ "" then
      let acc := acc ++ [FsEvent.mkdirAll dir 0o755]
      match o.mkdirAllErr with
      | some e => (some (.fsErr e), acc)
      | none => syncFileOpenCopy o acc
    else syncFileOpenCopy o acc
  syncFileOpenCopy (o : SyncOracle) (acc : List FsEvent) : Option SyncErr × List FsEvent :=
    let (openRes, openEvs) := openFileStep o
    let acc := acc ++ openEvs
    match openRes with
    | some e => (some e, acc)
    | none =>
        let bufsize := o.statSize
        let bufsize := if bufsize > copyBufferSize then copyBufferSize else bufsize
        let bufsize := if bufsize = 0 then 1 else bufsize
        let acc := acc ++ [FsEvent.copy bufsize]
        match o.copyOutcome with
        | .ok => (none, acc)
        | .eof => (none, acc)
        | .err e => (some (.fsErr e), acc)

/-! ## Auxiliary definitions used by the statements below -/

/-- "Parse the host as an IP and return whether it lies inside the CIDR;
non-IP hosts fail to match" — the tail of the `matchIPNet` closure. -/
def ipHostMatch (net : IPNet) (host : List Char) : Bool :=
  match parseIP host with
  | none => false
  | some ip => ipnetContains net ip

/-- The background-command composition as the spec words it: `stdout`
defaults to `nohup.out` when empty; `stderr` defaults to `&1` when empty or
equal to the (defaulted) `stdout`; the command is wrapped as
`nohup <cmd> ><stdout> 2><stderr> </dev/null &`. -/
def cmdBgSpecString (cmd stdout stderr : String) : String :=
  let stdoutEff := if stdout = "" then "nohup.out" else stdout
  let stderrEff := if stderr = "" ∨ stderr = stdoutEff then "&1" else stderr
  "nohup " ++ cmd ++ " >" ++ stdoutEff ++ " 2>" ++ stderrEff ++ " </dev/null &"

/-- Iterate `Take` on a pool: keep taking while tickets are handed out,
returning the first non-ticket outcome or the outcome after `n` further
takes. -/
def takeDrain : Nat → SessionPool → TakeResult
  | 0, p => p.take
  | n + 1, p =>
      match p.take with
      | .ticket _ p' => takeDrain n p'
      | r => r

/-- A concrete `syncFile` oracle: copying a 5-byte mode-`0644` source file
onto `/tmp/a/b.txt` over a POSIX remote whose `Remove` reports not-found and
whose copy ends with `io.EOF`. -/
def syncOracle0 : SyncOracle :=
  { fpath := unixFilepathOps
    rpath := "/tmp/a/b.txt"
    statSize := 5
    statMode := 0o644
    removeErr := some 2
    removeIsNotExist := true
    mkdirAllErr := none
    openErr := none
    fstatErr := none
    fstatIsDir := false
    copyOutcome := .eof }

/-! ## Normal forms of cleaned POSIX paths

Infrastructure for the idempotence proof of the POSIX-configured `clean`
(`IsUnix`, separator `'/'`).  A cleaned path is `"."`, or a rooted path
`'/'` followed by `/`-joined elements, or a relative path made of a run of
`..` elements followed by regular elements.  `GoodElem` captures a regular
element: nonempty, separator-free, and neither `.` nor `..`. -/

/-- A regular path element of a cleaned path. -/
def GoodElem (e : List Char) : Prop :=
  e ≠ [] ∧ '/' ∉ e ∧ e ≠ ['.'] ∧ e ≠ ['.', '.']

/-- Each component preceded by a `'/'`. -/
def sepJoin : List (List Char) → List Char
  | [] => []
  | e :: es => '/' :: (e ++ sepJoin es)

/-- Components joined by `'/'`. -/
def joinComps : List (List Char) → List Char
  | [] => []
  | e :: es => e ++ sepJoin es

/-- A run of `k` leading `..` components followed by `elems`, joined. -/
def relShape (k : Nat) (elems : List (List Char)) : List Char :=
  joinComps (List.replicate k ['.', '.'] ++ elems)

/-- The `dotdot` barrier value while the buffer holds `k` leading `..`
components and nothing else. -/
def ddLen (k : Nat) : Nat := (relShape k []).length

/-! # Theorems -/

/-! ## C1 — `NewMux` does not sort by rule priority -/

/-- Claim C1 (code bug): `NewMux` stores no priorities and performs no
sorting, so `AgentGate` returns the value of the *first* matching entry in
the compiled (map-iteration) order, not of the highest-priority one.  With
the gate rules `ipnet:127.0.0.0/16 → "ipnet"` and
`plain:127.0.0.1:22 → "plain"` compiled in that (attainable) iteration
order, `AgentGate "127.0.0.1:22"` returns `"ipnet"`, although the plain rule
also matches that address and the plain kind's registered priority (100)
exceeds the ipnet kind's (0) — the repository's own `TestPriority` expects
`"plain"` here. -/
theorem newMux_agentGate_ignores_priority :
    (newMuxGates [("ipnet:127.0.0.0/16", "ipnet"), ("plain:127.0.0.1:22", "plain")]).map
        (fun gs => agentGate gs "127.0.0.1:22") = some "ipnet" ∧
    matchPlain "127.0.0.1:22" "127.0.0.1:22" = true ∧
    builtinPriority "plain" > builtinPriority "ipnet" ∧
    "ipnet" ≠ "plain" := by
  refine ⟨by decide, by decide, by decide, by decide⟩

/-! ## C2 — the shared counter counts only non-owning handles -/

theorem refRun_refs_eq_nopOpen (evs : List RefEvent) (s : RefState)
    (h : s.refs = s.nopOpen) : (refRun s evs).refs = (refRun s evs).nopOpen := by
  induction evs generalizing s with
  | nil => exact h
  | cons e es ih =>
      cases e <;> exact ih _ (by simp [refStep]; omega)

/-- Claim C2, counterexample: immediately after `NewSSH` the owning handle
is open, no non-owning handle exists, and the shared counter is 0 — not the
1 the claim's invariant (`refs = owning + non-owning handles open`)
requires. -/
theorem refcount_claim_fails_at_creation :
    (newSSHState false 0).refs ≠ claimedHandleCount (newSSHState false 0) := by
  decide

/-- Claim C2, amended: the shared counter equals the number of *non-owning*
(`NopClose`) handles currently open — the owning handle is never counted.
`Close` on a non-owning handle decrements the counter, `NopClose` increments
it, and `Close` on the owning handle leaves its own counter unchanged (it
decrements the gate's counter instead, when a gate exists). -/
theorem refcount_counts_nonowning_handles (hasGate : Bool) (g : Int)
    (evs : List RefEvent) :
    (refRun (newSSHState hasGate g) evs).refs
        = (refRun (newSSHState hasGate g) evs).nopOpen ∧
    (∀ s : RefState,
        (refStep s .closeNonOwning).refs = s.refs - 1 ∧
        (refStep s .nopClose).refs = s.refs + 1 ∧
        (refStep s .closeOwner).refs = s.refs ∧
        (refStep s .closeOwner).gateRefs
          = (if s.hasGate then s.gateRefs - 1 else s.gateRefs)) := by
  refine ⟨refRun_refs_eq_nopOpen evs _ rfl, fun s => ⟨rfl, rfl, rfl, rfl⟩⟩

/-! ## C3 — `newSessionPool 0` is bounded, not unbounded -/

/-- Claim C3, counterexample: for the unset (zero) size the pool is *not*
unbounded — `newSessionPool 0` allocates a channel of 10 pre-filled tokens,
and after those 10 tokens are taken the next `Take` blocks instead of
succeeding with a fresh ticket. -/
theorem newSessionPool_zero_is_bounded :
    (newSessionPool 0).size = 10 ∧
    (newSessionPool 0).c = some { cap := 10, tokens := 10 } ∧
    takeDrain 10 (newSessionPool 0) = .blocked := by
  refine ⟨by decide, by decide, by decide⟩

/-- Claim C3, amended: `newSessionPool n` is unbounded — `Take` always
succeeds immediately with a fresh Active ticket, touching no channel — only
for *negative* `n`; `n = 0` defaults to a bounded pool of exactly 10
pre-filled tokens and positive `n` to a bounded pool of exactly `n`
pre-filled tokens. -/
theorem newSessionPool_spec (n : Int) :
    (n < 0 → newSessionPool n = { size := n, c := none } ∧
       (newSessionPool n).take = .ticket { status := .active } (newSessionPool n)) ∧
    (n = 0 → newSessionPool n = { size := 10, c := some { cap := 10, tokens := 10 } }) ∧
    (0 < n → newSessionPool n = { size := n, c := some { cap := n.toNat, tokens := n.toNat } }) := by
  refine ⟨fun h => ?_, fun h => ?_, fun h => ?_⟩
  · have hne : ¬ n = 0 := by omega
    have hng : ¬ n > 0 := by omega
    constructor
    · simp [newSessionPool, hne, hng]
    · have hle : (newSessionPool n).size ≤ 0 := by simp [newSessionPool, hne, hng]; omega
      simp [SessionPool.take, hle]
  · subst h; decide
  · have hne : ¬ n = 0 := by omega
    simp [newSessionPool, hne, initPoolChan, h]

/-- Witness for `newSessionPool_spec` at `n = -1`, `n = 0` and `n = 3`. -/
theorem newSessionPool_spec_witness :
    newSessionPool (-1) = { size := -1, c := none } ∧
    newSessionPool 0 = { size := 10, c := some { cap := 10, tokens := 10 } } ∧
    newSessionPool 3 = { size := 3, c := some { cap := 3, tokens := 3 } } :=
  ⟨((newSessionPool_spec (-1)).1 (by decide)).1,
   (newSessionPool_spec 0).2.1 rfl,
   (newSessionPool_spec 3).2.2 (by decide)⟩

/-! ## C4 — ticket transitions are single-shot and monotonic -/

/-- Claim C4: ticket state changes go through one compare-and-swap from
Active only.  The first `Release` moves Active→Idle and returns one token to
the pool (`put` succeeds on an open bounded pool with room); the first
`Drop` moves Active→Invalid and returns no token; `Release`/`Drop` on a
non-Active ticket are no-ops; `Release` never produces Invalid, and a ticket
that `Drop` leaves Invalid was Active or already Invalid — never Idle. -/
theorem session_transitions (p : SessionPool) (ch : Chan)
    (hb : 0 < p.size) (hc : p.c = some ch) (hroom : ch.tokens < ch.cap) :
    Session.release { status := .active } p
      = ({ status := .idle }, { p with c := some { ch with tokens := ch.tokens + 1 } }, true) ∧
    Session.drop { status := .active } p = ({ status := .invalid }, p, true) ∧
    (∀ s : Session, s.status ≠ .active →
        Session.release s p = (s, p, false) ∧ Session.drop s p = (s, p, false)) ∧
    (∀ s : Session, (Session.release s p).1.status = .invalid → s.status = .invalid) ∧
    (∀ s : Session, (Session.drop s p).1.status = .invalid →
        s.status = .active ∨ s.status = .invalid) := by
  have hput : p.put = ({ p with c := some { ch with tokens := ch.tokens + 1 } }, true) := by
    have : ¬ p.size ≤ 0 := by omega
    simp [SessionPool.put, this, hc, hroom]
  refine ⟨?_, rfl, fun s hs => ?_, fun s => ?_, fun s => ?_⟩
  · simp [Session.release, hput]
  · obtain ⟨st⟩ := s
    cases st with
    | active => exact absurd rfl hs
    | idle => exact ⟨rfl, rfl⟩
    | invalid => exact ⟨rfl, rfl⟩
  · obtain ⟨st⟩ := s
    cases st <;> simp [Session.release, hput]
  · obtain ⟨st⟩ := s
    cases st <;> simp [Session.drop]

/-- Witness for `session_transitions` on a pool of size 2 holding one idle
token. -/
theorem session_transitions_witness :
    (0 : Int) < 2 ∧
    Session.release { status := .active } { size := 2, c := some { cap := 2, tokens := 1 } }
      = ({ status := .idle }, { size := 2, c := some { cap := 2, tokens := 2 } }, true) :=
  ⟨by decide,
   ((session_transitions { size := 2, c := some { cap := 2, tokens := 1 } }
      { cap := 2, tokens := 1 } (by decide) rfl (by decide)).1).trans (by decide)⟩

/-! ## C5 — the ipnet matcher -/

/-- Claim C5: for every pattern the CIDR parser accepts, the ipnet matcher
strips a port when the address contains `':'` (failing the match when the
split errors or leaves an empty host), then parses the remaining host as an
IP and answers membership in the CIDR, with `false` (never an error) for
non-IP hosts; in particular `ipnet:127.0.0.0/16` matches `127.0.0.1`,
`127.0.111.1` and `127.0.2.3:22` but not `127.1.2.3:22`, `127.0.011` or
`127.0.0a1`. -/
theorem matchIPNet_spec (p : String) (net : IPNet)
    (hp : parseCIDR p.data = some net) :
    matchIPNet p = some (ipnetMatcher net) ∧
    (∀ addr : String, (byteIndex addr.data ':').isSome →
        splitHostPort addr.data = none → ipnetMatcher net addr = false) ∧
    (∀ (addr : String) (port : List Char), (byteIndex addr.data ':').isSome →
        splitHostPort addr.data = some ([], port) → ipnetMatcher net addr = false) ∧
    (∀ (addr : String) (host port : List Char), (byteIndex addr.data ':').isSome →
        splitHostPort addr.data = some (host, port) → host ≠ [] →
        ipnetMatcher net addr = ipHostMatch net host) ∧
    (∀ addr : String, (byteIndex addr.data ':').isSome = false →
        ipnetMatcher net addr = ipHostMatch net addr.data) ∧
    (p = "127.0.0.0/16" →
        ipnetMatcher net "127.0.0.1" = true ∧
        ipnetMatcher net "127.0.111.1" = true ∧
        ipnetMatcher net "127.0.2.3:22" = true ∧
        ipnetMatcher net "127.1.2.3:22" = false ∧
        ipnetMatcher net "127.0.011" = false ∧
        ipnetMatcher net "127.0.0a1" = false) := by
  refine ⟨by simp [matchIPNet, hp], ?_, ?_, ?_, ?_, ?_⟩
  · intro addr h1 h2
    simp [ipnetMatcher, h1, h2]
  · intro addr port h1 h2
    simp [ipnetMatcher, h1, h2]
  · intro addr host port h1 h2 h3
    simp [ipnetMatcher, ipHostMatch, h1, h2, h3]
  · intro addr h1
    simp [ipnetMatcher, ipHostMatch, h1]
  · intro hpe
    subst hpe
    have hnet : net = { ip := ⟨127, 0, 0, 0⟩, mask := ⟨255, 255, 0, 0⟩ } := by
      have h0 : parseCIDR ("127.0.0.0/16" : String).data
          = some { ip := ⟨127, 0, 0, 0⟩, mask := ⟨255, 255, 0, 0⟩ } := by decide
      rw [h0] at hp
      exact (Option.some.injEq _ _ ▸ hp).symm
    subst hnet
    refine ⟨by decide, by decide, by decide, by decide, by decide, by decide⟩

/-- Witness for `matchIPNet_spec` at the pattern `127.0.0.0/16`. -/
theorem matchIPNet_spec_witness :
    parseCIDR ("127.0.0.0/16" : String).data
        = some { ip := ⟨127, 0, 0, 0⟩, mask := ⟨255, 255, 0, 0⟩ } ∧
    matchIPNet "127.0.0.0/16"
        = some (ipnetMatcher { ip := ⟨127, 0, 0, 0⟩, mask := ⟨255, 255, 0, 0⟩ }) :=
  ⟨by decide, (matchIPNet_spec "127.0.0.0/16" _ (by decide)).1⟩

/-! ## C7 — single-file transfer steps -/

/-- Claim C7: copying one non-directory file performs, in order: `Remove` of
the destination (not-found tolerated), `MkdirAll` of its directory with mode
0755 when the directory string is non-empty, an open with
`O_CREATE|O_WRONLY|O_TRUNC` and the source's mode, and a copy through a
buffer of `min(fileSize, 1 MiB)` floored at one byte, with `io.EOF` from the
copy treated as success. -/
theorem syncFile_spec (o : SyncOracle)
    (hsize : 0 ≤ o.statSize)
    (hrm : o.removeErr = none ∨ o.removeIsNotExist = true)
    (hmk : o.mkdirAllErr = none)
    (hopen : o.openErr = none)
    (hnd : o.fstatErr = none → o.fstatIsDir = false)
    (hcopy : o.copyOutcome = .ok ∨ o.copyOutcome = .eof) :
    syncFile o =
      (none,
       [FsEvent.remove o.rpath] ++
       (if o.fpath.fromSlash (o.fpath.split o.rpath).1 ≠ "" then
          [FsEvent.mkdirAll (o.fpath.fromSlash (o.fpath.split o.rpath).1) 0o755]
        else []) ++
       [FsEvent.openFile o.rpath oCreateWronlyTrunc o.statMode, FsEvent.fstat,
        FsEvent.copy (max 1 (min o.statSize copyBufferSize))]) := by
  have hbuf :
      (if (if o.statSize > copyBufferSize then copyBufferSize else o.statSize) = 0 then 1
       else (if o.statSize > copyBufferSize then copyBufferSize else o.statSize))
        = max 1 (min o.statSize copyBufferSize) := by
    have hc : (0 : Int) < copyBufferSize := by decide
    split_ifs <;> omega
  have hopenStep : openFileStep o
      = (none, [FsEvent.openFile o.rpath oCreateWronlyTrunc o.statMode, FsEvent.fstat]) := by
    unfold openFileStep
    rw [hopen]
    cases hst : o.fstatErr with
    | some e => rfl
    | none => simp [hnd hst]
  have hcore : ∀ acc, syncFile.syncFileOpenCopy o acc
      = (none, acc ++ [FsEvent.openFile o.rpath oCreateWronlyTrunc o.statMode, FsEvent.fstat,
                       FsEvent.copy (max 1 (min o.statSize copyBufferSize))]) := by
    intro acc
    unfold syncFile.syncFileOpenCopy
    rw [hopenStep]
    simp only [hbuf]
    rcases hcopy with hc | hc <;> rw [hc] <;> simp
  have hafter : ∀ acc, syncFile.syncFileAfterRemove o acc
      = (none, acc ++
          (if o.fpath.fromSlash (o.fpath.split o.rpath).1 ≠ "" then
             [FsEvent.mkdirAll (o.fpath.fromSlash (o.fpath.split o.rpath).1) 0o755]
           else []) ++
          [FsEvent.openFile o.rpath oCreateWronlyTrunc o.statMode, FsEvent.fstat,
           FsEvent.copy (max 1 (min o.statSize copyBufferSize))]) := by
    intro acc
    unfold syncFile.syncFileAfterRemove
    by_cases hdir : o.fpath.fromSlash (o.fpath.split o.rpath).1 = ""
    · simp [hdir, hcore]
    · simp [hdir, hmk, hcore]
  unfold syncFile
  rcases hrm with h | h
  · rw [h]
    simpa using hafter _
  · cases hre : o.removeErr with
    | none => simpa using hafter _
    | some e => simpa [h] using hafter _

/-- Witness for `syncFile_spec` on the concrete oracle `syncOracle0`. -/
theorem syncFile_spec_witness :
    ((0 : Int) ≤ syncOracle0.statSize ∧ syncOracle0.copyOutcome = .eof) ∧
    syncFile syncOracle0 =
      (none, [FsEvent.remove "/tmp/a/b.txt", FsEvent.mkdirAll "/tmp/a/" 0o755,
              FsEvent.openFile "/tmp/a/b.txt" oCreateWronlyTrunc 0o644, FsEvent.fstat,
              FsEvent.copy 5]) :=
  ⟨⟨by decide, rfl⟩,
   (syncFile_spec syncOracle0 (by decide) (Or.inr rfl) rfl rfl (fun _ => rfl)
       (Or.inr rfl)).trans (by decide)⟩

/-! ## C6 — a latched error suppresses all further I/O -/

/-- Claim C6: once an error is latched, every subsequent command and file
operation of the chained style is a no-op — it performs no I/O and the latch
still holds the first recorded error — until `ClearError` resets the latch;
with a clear latch an operation does perform its I/O. -/
theorem chained_error_latch (e : Nat) (ops : List (ChainOp × Except Nat Unit)) :
    chainRun (some e) ops = (some e, []) ∧
    clearError (some e) = none ∧
    (∀ (op : ChainOp) (io : Except Nat Unit), (chainStep none op io).2 = [op]) := by
  refine ⟨?_, rfl, fun op io => by cases io <;> rfl⟩
  induction ops with
  | nil => rfl
  | cons p rest ih => simpa [chainRun, chainStep] using ih

/-! ## C9 — background command composition -/

/-- Claim C9: `RcmdBg`/`LcmdBg` pass `cmdBg`'s composition to `Rcmd`/`Lcmd`:
`nohup <cmd> ><stdout> 2><stderr> </dev/null &`, with `stdout` defaulting to
`nohup.out` when empty and `stderr` defaulting to `&1` when empty or equal
to the defaulted `stdout`. -/
theorem cmdBg_spec (cmd stdout stderr : String) :
    cmdBg cmd stdout stderr = cmdBgSpecString cmd stdout stderr := rfl

/-! ## C10 — directory listings come back sorted by name -/

/-- Claim C10: whenever the shared `readdir` helper succeeds it returns a
permutation of the listing that is sorted in ascending order of file name
(`Lreaddir`/`Rreaddir` both go through this helper). -/
theorem readdir_sorted (latch : Option Nat) (l r : List FileInfo)
    (h : readdir latch (.ok l) = .ok r) :
    r.Sorted byNameLe ∧ r.Perm l := by
  cases latch with
  | some e => simp [readdir] at h
  | none =>
      have hr : r = sortByName l := by
        simpa [readdir] using h.symm
      subst hr
      exact ⟨List.sorted_insertionSort byNameLe l, List.perm_insertionSort byNameLe l⟩

/-- Witness for `readdir_sorted` on the listing `["b", "a"]`. -/
theorem readdir_sorted_witness :
    (List.Sorted byNameLe [FileInfo.mk "a", FileInfo.mk "b"] ∧
     List.Perm [FileInfo.mk "a", FileInfo.mk "b"] [FileInfo.mk "b", FileInfo.mk "a"]) :=
  readdir_sorted none [FileInfo.mk "b", FileInfo.mk "a"]
    [FileInfo.mk "a", FileInfo.mk "b"]
    (by simp [readdir, sortByName, List.insertionSort, List.orderedInsert, byNameLe]
        decide)

/-! ## C8 — path-engine lemmas -/

theorem sepJoin_append (xs : List (List Char)) (e : List Char) :
    sepJoin (xs ++ [e]) = sepJoin xs ++ '/' :: e := by
  induction xs with
  | nil => simp [sepJoin]
  | cons x xs ih => simp [sepJoin, ih]

theorem joinComps_append (xs : List (List Char)) (e : List Char) (hxs : xs ≠ []) :
    joinComps (xs ++ [e]) = joinComps xs ++ '/' :: e := by
  cases xs with
  | nil => exact absurd rfl hxs
  | cons x xs => simp [joinComps, sepJoin_append]

theorem joinComps_eq_nil (xs : List (List Char)) (hx : ∀ e ∈ xs, GoodElem e) :
    joinComps xs = [] ↔ xs = [] := by
  cases xs with
  | nil => simp [joinComps]
  | cons x xs =>
      have hgx := hx x (by simp)
      constructor
      · intro h
        exact absurd (List.append_eq_nil.mp (by simpa [joinComps] using h)).1 hgx.1
      · intro h
        exact absurd h (by simp)

theorem takeWhile_append_of_all (p : Char → Bool) (l r : List Char)
    (hl : ∀ x ∈ l, p x) : (l ++ r).takeWhile p = l ++ r.takeWhile p := by
  induction l with
  | nil => simp
  | cons a l ih =>
      have ha : p a := hl a (by simp)
      simp [List.takeWhile, ha, ih (fun x hx => hl x (by simp [hx]))]

theorem dropWhile_append_of_all (p : Char → Bool) (l r : List Char)
    (hl : ∀ x ∈ l, p x) : (l ++ r).dropWhile p = r.dropWhile p := by
  induction l with
  | nil => simp
  | cons a l ih =>
      have ha : p a := hl a (by simp)
      simp [List.dropWhile, ha, ih (fun x hx => hl x (by simp [hx]))]

/-- `btLoop` walks down to `dotdot` when every index above it holds a
non-separator. -/
theorem btLoop_all_nonsep (out : List Char) (dotdot : Nat) (w : Nat)
    (h : ∀ i, dotdot < i → i ≤ w → out.getD i '/' ≠ '/') :
    btLoop '/' out dotdot w = if w ≤ dotdot then w else dotdot := by
  induction w with
  | zero => simp [btLoop]
  | succ w ih =>
      rw [btLoop]
      split_ifs with hc hw
      · rcases hc with ⟨h1, _⟩
        exact absurd (Nat.succ_le_of_lt h1) (by omega)
      · rcases hc with ⟨h1, _⟩
        rw [ih (fun i hi hiw => h i hi (Nat.le_succ_of_le hiw))]
        by_cases hw' : w ≤ dotdot
        · rw [if_pos hw']; omega
        · rw [if_neg hw']
      · rfl
      · exfalso
        apply hc
        have h1 : dotdot < w + 1 := by omega
        refine ⟨h1, ?_⟩
        have h2 := h (w + 1) h1 (Nat.le_refl _)
        simpa [isSep, eq_comm] using h2

/-- `btLoop` stops at a separator index `b` at or above `dotdot` when the
indices strictly between `b` and `w` hold non-separators. -/
theorem btLoop_stop_at_sep (out : List Char) (dotdot b w : Nat)
    (hdb : dotdot ≤ b) (hbw : b ≤ w) (hsep : out.getD b '/' = '/')
    (h : ∀ i, b < i → i ≤ w → out.getD i '/' ≠ '/') :
    btLoop '/' out dotdot w = b := by
  induction w with
  | zero =>
      have hb0 : b = 0 := by omega
      simp [btLoop, hb0]
  | succ w ih =>
      rw [btLoop]
      split_ifs with hc
      · rcases hc with ⟨h1, h3⟩
        by_cases hb : b = w + 1
        · have hs : out.getD (w + 1) '/' = '/' := hb ▸ hsep
          exact absurd (show isSep '/' (out.getD (w + 1) '/') = true by rw [hs]; rfl) h3
        · exact ih (by omega) (fun i hi hiw => h i hi (by omega))
      · by_cases hb : b = w + 1
        · exact hb.symm
        · exfalso
          apply hc
          refine ⟨by omega, ?_⟩
          have h2 := h (w + 1) (by omega) (Nat.le_refl _)
          simpa [isSep, eq_comm] using h2

/-- Backtracking over a buffer `P ++ '/' :: el` whose last element `el` is
separator-free removes exactly that element and its separator. -/
theorem backtrack_removes_last (P el : List Char) (dotdot : Nat)
    (hns : '/' ∉ el) (hdd : dotdot ≤ P.length) :
    (P ++ '/' :: el).take
        (btLoop '/' (P ++ '/' :: el) dotdot ((P ++ '/' :: el).length - 1)) = P := by
  have hlen : (P ++ '/' :: el).length = P.length + 1 + el.length := by
    simp; omega
  have hw : (P ++ '/' :: el).length - 1 = P.length + el.length := by omega
  have hsep : (P ++ '/' :: el).getD P.length '/' = '/' := by
    rw [List.getD_append_right P ('/' :: el) '/' P.length (Nat.le_refl _)]
    simp
  have hnonsep : ∀ i, P.length < i → i ≤ P.length + el.length →
      (P ++ '/' :: el).getD i '/' ≠ '/' := by
    intro i hi hiw
    rw [List.getD_append_right P ('/' :: el) '/' i (by omega)]
    have h1 : i - P.length = (i - P.length - 1) + 1 := by omega
    rw [h1, List.getD_cons_succ]
    have hidx : i - P.length - 1 < el.length := by omega
    rw [List.getD_eq_getElem el '/' hidx]
    intro hcontra
    exact hns (hcontra ▸ List.getElem_mem hidx)
  rw [hw, btLoop_stop_at_sep _ _ _ _ hdd (Nat.le_add_right _ _) hsep hnonsep]
  exact List.take_left P ('/' :: el)

/-- Backtracking over a separator-free nonempty buffer with barrier 0 clears
it. -/
theorem backtrack_clears (el : List Char) (hns : '/' ∉ el) :
    el.take (btLoop '/' el 0 (el.length - 1)) = [] := by
  have hnonsep : ∀ i, 0 < i → i ≤ el.length - 1 → el.getD i '/' ≠ '/' := by
    intro i _ hiw
    have hidx : i < el.length := by omega
    rw [List.getD_eq_getElem el '/' hidx]
    intro hcontra
    exact hns (hcontra ▸ List.getElem_mem hidx)
  rw [btLoop_all_nonsep _ _ _ hnonsep]
  split_ifs with h
  · have h0 : el.length - 1 = 0 := by omega
    rw [h0]
    exact List.take_zero el
  · exact List.take_zero el

/-- All components of a buffer or input are regular elements. -/
def GoodComps (xs : List (List Char)) : Prop := ∀ e ∈ xs, GoodElem e

theorem joinComps_singleton (e : List Char) : joinComps [e] = e := by
  simp [joinComps, sepJoin]

theorem sepJoin_cons_eq (x : List Char) (xs : List (List Char)) :
    sepJoin (x :: xs) = '/' :: joinComps (x :: xs) := rfl

theorem joinComps_append_sepJoin (xs ys : List (List Char)) (hxs : xs ≠ []) :
    joinComps (xs ++ ys) = joinComps xs ++ sepJoin ys := by
  induction xs with
  | nil => exact absurd rfl hxs
  | cons x xs ih =>
      cases xs with
      | nil => simp [joinComps, sepJoin]
      | cons x' xs' =>
          have := ih (by simp)
          simp only [List.cons_append, joinComps, sepJoin] at this ⊢
          simp [this]

theorem sepJoin_length_pos (ys : List (List Char)) (hys : ys ≠ []) :
    0 < (sepJoin ys).length := by
  cases ys with
  | nil => exact absurd rfl hys
  | cons y ys => simp [sepJoin]

theorem joinComps_of_append_single (xs : List (List Char)) (e : List Char) :
    joinComps (xs ++ [e]) = if xs = [] then e else joinComps xs ++ '/' :: e := by
  cases hxs : xs with
  | nil => simp [joinComps_singleton]
  | cons x xs' =>
      rw [joinComps_append_sepJoin _ _ (by simp)]
      simp [sepJoin]

theorem joinComps_ne_nil (xs : List (List Char)) (hx : ∀ e ∈ xs, e ≠ [])
    (hxs : xs ≠ []) : joinComps xs ≠ [] := by
  cases xs with
  | nil => exact absurd rfl hxs
  | cons x xs =>
      have hxne : x ≠ [] := hx x (by simp)
      simp only [joinComps]
      intro h
      exact hxne (List.append_eq_nil.mp h).1

/-- `relShape` components are nonempty (`..` or regular). -/
theorem relShape_comps_ne_nil (k : Nat) (elems : List (List Char))
    (he : GoodComps elems) :
    ∀ e ∈ List.replicate k ['.', '.'] ++ elems, e ≠ [] := by
  intro e hmem
  rcases List.mem_append.mp hmem with h | h
  · rw [List.eq_of_mem_replicate h]
    simp
  · exact (he e h).1

theorem relShape_eq_nil_iff (j : Nat) (done : List (List Char))
    (hd : GoodComps done) : relShape j done = [] ↔ j = 0 ∧ done = [] := by
  constructor
  · intro h
    by_contra hcon
    have hne : List.replicate j ['.', '.'] ++ done ≠ [] := by
      intro hnil
      rcases List.append_eq_nil.mp hnil with ⟨h1, h2⟩
      exact hcon ⟨by simpa using congrArg List.length h1, h2⟩
    exact joinComps_ne_nil _ (relShape_comps_ne_nil j done hd) hne h
  · rintro ⟨rfl, rfl⟩
    rfl

theorem relShape_append_single (j : Nat) (done : List (List Char)) (e : List Char)
    (hne : ¬ (j = 0 ∧ done = [])) :
    relShape j (done ++ [e]) = relShape j done ++ '/' :: e := by
  unfold relShape
  rw [← List.append_assoc, joinComps_of_append_single]
  have : ¬ List.replicate j ['.', '.'] ++ done = [] := by
    intro hnil
    rcases List.append_eq_nil.mp hnil with ⟨h1, h2⟩
    exact hne ⟨by simpa using congrArg List.length h1, h2⟩
  rw [if_neg this]

theorem relShape_zero (elems : List (List Char)) : relShape 0 elems = joinComps elems := rfl

theorem relShape_succ_nil (j : Nat) :
    relShape (j + 1) [] = (if 0 < (relShape j []).length then relShape j [] ++ ['/'] else relShape j [])
      ++ ['.', '.'] := by
  cases j with
  | zero => simp [relShape, joinComps, sepJoin]
  | succ j' =>
      have hlen : 0 < (relShape (j' + 1) []).length := by
        have hne := joinComps_ne_nil (List.replicate (j' + 1) ['.', '.'])
          (fun e he => by rw [List.eq_of_mem_replicate he]; simp)
          (by simp)
        simp only [relShape, List.append_nil] at *
        cases h : joinComps (List.replicate (j' + 1) ['.', '.']) with
        | nil => exact absurd h hne
        | cons a l => simp
      rw [if_pos hlen]
      unfold relShape
      have h1 : List.replicate (j' + 1 + 1) ['.', '.']
          = List.replicate (j' + 1) ['.', '.'] ++ [['.', '.']] := by
        rw [← List.replicate_succ']
      simp only [List.append_nil] at *
      rw [h1, joinComps_of_append_single, if_neg (by simp)]
      simp

/-- The empty input returns the buffer for any bound. -/
theorem cleanLoopF_nil (rooted : Bool) (gas : Nat) (out : List Char) (dotdot : Nat) :
    cleanLoopF '/' rooted gas [] out dotdot = out := by
  cases gas <;> rfl

/-- A leading separator is skipped. -/
theorem cleanLoopF_sep (rooted : Bool) (gas : Nat) (t out : List Char) (dotdot : Nat) :
    cleanLoopF '/' rooted (gas + 1) ('/' :: t) out dotdot
      = cleanLoopF '/' rooted gas t out dotdot := by
  rw [cleanLoopF, if_pos (by simp [isSep])]

/-- Feeding one regular element (followed by nothing or by a separator) to
the scanning loop appends it to the buffer, with a separator in between when
the buffer is past its seed. -/
theorem cleanLoopF_elem_step (rooted : Bool) (gas : Nat) (e rest out : List Char)
    (dotdot : Nat) (he : GoodElem e) (hrest : rest = [] ∨ ∃ t, rest = '/' :: t) :
    cleanLoopF '/' rooted (gas + 1) (e ++ rest) out dotdot =
      cleanLoopF '/' rooted gas rest
        ((if (rooted ∧ out.length ≠ 1) ∨ (¬ rooted ∧ out.length ≠ 0) then out ++ ['/']
          else out) ++ e) dotdot := by
  obtain ⟨hne, hns, hnd, hndd⟩ := he
  obtain ⟨c, e', rfl⟩ : ∃ c e', e = c :: e' := by
    cases e with
    | nil => exact absurd rfl hne
    | cons c e' => exact ⟨c, e', rfl⟩
  have hc : c ≠ '/' := fun h => hns (by simp [h])
  have hmem : ∀ x ∈ e', x ≠ '/' := fun x hx h => hns (by simp [h ▸ hx])
  have hg1 : ¬ isSep '/' c = true := by simp [isSep]; exact fun h => hc h.symm
  have hg2 : ¬ (c = '.' ∧ (e' ++ rest = [] ∨ isSep '/' ((e' ++ rest).headD '/') = true)) := by
    rintro ⟨hcdot, hrest2⟩
    subst hcdot
    cases e' with
    | nil => exact hnd rfl
    | cons d e'' =>
        rcases hrest2 with h | h
        · simp at h
        · have hd : d ≠ '/' := hmem d (by simp)
          simp [isSep] at h
          exact hd h.symm
  have hg3 : ¬ (c = '.' ∧ (e' ++ rest).headD '/' = '.' ∧
      ((e' ++ rest).tail = [] ∨ isSep '/' ((e' ++ rest).tail.headD '/') = true)) := by
    rintro ⟨hcdot, hhead, htail⟩
    subst hcdot
    cases e' with
    | nil => exact hnd rfl
    | cons d e'' =>
        simp at hhead
        subst hhead
        cases e'' with
        | nil => exact hndd rfl
        | cons f e''' =>
            rcases htail with h | h
            · simp at h
            · have hf : f ≠ '/' := hmem f (by simp)
              simp [isSep] at h
              exact hf h.symm
  have htake : (e' ++ rest).takeWhile (fun d => ¬ isSep '/' d) = e' := by
    rw [takeWhile_append_of_all _ _ _ (fun x hx => by
      simp [isSep]
      exact fun h => (hmem x hx) h.symm)]
    rcases hrest with h | ⟨t, h⟩ <;> subst h <;> simp [List.takeWhile, isSep]
  have hdrop : (e' ++ rest).dropWhile (fun d => ¬ isSep '/' d) = rest := by
    rw [dropWhile_append_of_all _ _ _ (fun x hx => by
      simp [isSep]
      exact fun h => (hmem x hx) h.symm)]
    rcases hrest with h | ⟨t, h⟩ <;> subst h <;> simp [List.dropWhile, isSep]
  show cleanLoopF '/' rooted (gas + 1) (c :: (e' ++ rest)) out dotdot = _
  rw [cleanLoopF]
  rw [if_neg (by simpa using hg1), if_neg (by simpa using hg2), if_neg (by simpa using hg3)]
  rw [htake, hdrop]

/-- Rooted stability: feeding joined regular elements onto a rooted buffer
appends them all. -/
theorem cleanLoopF_root_elems (elems : List (List Char)) :
    ∀ (gas : Nat) (done : List (List Char)), GoodComps elems → GoodComps done →
      (joinComps elems).length ≤ gas →
      cleanLoopF '/' true gas (joinComps elems) ('/' :: joinComps done) 1
        = '/' :: joinComps (done ++ elems) := by
  induction elems with
  | nil =>
      intro gas done _ _ _
      simp [joinComps, cleanLoopF_nil]
  | cons e rest ih =>
      intro gas done hElems hDone hlen
      have hge : GoodElem e := hElems e (by simp)
      have helen : 1 ≤ e.length := by
        cases he : e with
        | nil => exact absurd he hge.1
        | cons a l => simp
      obtain ⟨g, rfl⟩ : ∃ g, gas = g + 1 := by
        refine ⟨gas - 1, ?_⟩
        have : 1 ≤ gas := by
          have h2 : (joinComps (e :: rest)).length = e.length + (sepJoin rest).length := by
            simp [joinComps]
          omega
        omega
      have hstep := cleanLoopF_elem_step true g e (sepJoin rest) ('/' :: joinComps done) 1 hge
        (by cases rest with
            | nil => exact Or.inl rfl
            | cons r rs => exact Or.inr ⟨_, rfl⟩)
      rw [show joinComps (e :: rest) = e ++ sepJoin rest from rfl, hstep]
      have hout2 : ((if (true = true ∧ ('/' :: joinComps done).length ≠ 1) ∨
            (¬ true = true ∧ ('/' :: joinComps done).length ≠ 0) then
            ('/' :: joinComps done) ++ ['/'] else ('/' :: joinComps done)) ++ e)
          = '/' :: joinComps (done ++ [e]) := by
      -- the seed `['/']` receives no separator; a longer buffer does
        by_cases hdone : done = []
        · subst hdone
          rw [if_neg (by simp [joinComps])]
          simp [joinComps, joinComps_singleton, sepJoin]
        · have hjne : joinComps done ≠ [] :=
            joinComps_ne_nil done (fun x hx => (hDone x hx).1) hdone
          rw [if_pos (by simp; intro h; exact absurd h hjne)]
          rw [joinComps_of_append_single, if_neg hdone]
          simp
      rw [hout2]
      cases rest with
      | nil =>
          rw [show sepJoin ([] : List (List Char)) = [] from rfl, cleanLoopF_nil]
      | cons r rs =>
          rw [sepJoin_cons_eq]
          obtain ⟨g', rfl⟩ : ∃ g', g = g' + 1 := by
            refine ⟨g - 1, ?_⟩
            have h2 : (joinComps (e :: r :: rs)).length
                = e.length + 1 + (joinComps (r :: rs)).length := by
              simp [joinComps, sepJoin]
              omega
            omega
          rw [cleanLoopF_sep]
          have hlen' : (joinComps (r :: rs)).length ≤ g' := by
            have h2 : (joinComps (e :: r :: rs)).length
                = e.length + 1 + (joinComps (r :: rs)).length := by
              simp [joinComps, sepJoin]
              omega
            omega
          rw [ih g' (done ++ [e]) (fun x hx => hElems x (by simp [hx]))
              (fun x hx => by
                rcases List.mem_append.mp hx with h | h
                · exact hDone x h
                · rw [List.mem_singleton.mp h]; exact hge) hlen']
          simp

/-- Relative stability over regular elements: feeding joined regular elements
onto a relative buffer appends them all, leaving the `..` barrier alone. -/
theorem cleanLoopF_rel_elems (elems : List (List Char)) :
    ∀ (gas : Nat) (j : Nat) (done : List (List Char)), GoodComps elems → GoodComps done →
      (joinComps elems).length ≤ gas →
      cleanLoopF '/' false gas (joinComps elems) (relShape j done) (ddLen j)
        = relShape j (done ++ elems) := by
  induction elems with
  | nil =>
      intro gas j done _ _ _
      simp [joinComps, cleanLoopF_nil]
  | cons e rest ih =>
      intro gas j done hElems hDone hlen
      have hge : GoodElem e := hElems e (by simp)
      have helen : 1 ≤ e.length := by
        cases he : e with
        | nil => exact absurd he hge.1
        | cons a l => simp
      obtain ⟨g, rfl⟩ : ∃ g, gas = g + 1 := by
        refine ⟨gas - 1, ?_⟩
        have h2 : (joinComps (e :: rest)).length = e.length + (sepJoin rest).length := by
          simp [joinComps]
        omega
      have hstep := cleanLoopF_elem_step false g e (sepJoin rest) (relShape j done) (ddLen j) hge
        (by cases rest with
            | nil => exact Or.inl rfl
            | cons r rs => exact Or.inr ⟨_, rfl⟩)
      rw [show joinComps (e :: rest) = e ++ sepJoin rest from rfl, hstep]
      have hout2 : ((if (false = true ∧ (relShape j done).length ≠ 1) ∨
            (¬ false = true ∧ (relShape j done).length ≠ 0) then
            relShape j done ++ ['/'] else relShape j done) ++ e)
          = relShape j (done ++ [e]) := by
        by_cases hempty : j = 0 ∧ done = []
        · obtain ⟨rfl, rfl⟩ := hempty
          rw [if_neg (by simp [relShape, joinComps])]
          simp [relShape, joinComps, joinComps_singleton, sepJoin]
        · have hne : relShape j done ≠ [] := by
            intro h
            exact hempty ((relShape_eq_nil_iff j done hDone).mp h)
          rw [if_pos (by simp; intro h; exact absurd h hne)]
          rw [relShape_append_single j done e hempty]
          simp
      rw [hout2]
      cases rest with
      | nil =>
          rw [show sepJoin ([] : List (List Char)) = [] from rfl, cleanLoopF_nil]
      | cons r rs =>
          rw [sepJoin_cons_eq]
          obtain ⟨g', rfl⟩ : ∃ g', g = g' + 1 := by
            refine ⟨g - 1, ?_⟩
            have h2 : (joinComps (e :: r :: rs)).length
                = e.length + 1 + (joinComps (r :: rs)).length := by
              simp [joinComps, sepJoin]
              omega
            omega
          rw [cleanLoopF_sep]
          have hlen' : (joinComps (r :: rs)).length ≤ g' := by
            have h2 : (joinComps (e :: r :: rs)).length
                = e.length + 1 + (joinComps (r :: rs)).length := by
              simp [joinComps, sepJoin]
              omega
            omega
          rw [ih g' j (done ++ [e]) (fun x hx => hElems x (by simp [hx]))
              (fun x hx => by
                rcases List.mem_append.mp hx with h | h
                · exact hDone x h
                · rw [List.mem_singleton.mp h]; exact hge) hlen']
          simp

/-- Relative stability over a `..` run: a relative normal form's leading `..`
components are appended one by one onto the `..` core of the buffer. -/
theorem cleanLoopF_rel_dd (k : Nat) :
    ∀ (gas j : Nat) (elems : List (List Char)), GoodComps elems →
      (relShape k elems).length ≤ gas →
      cleanLoopF '/' false gas (relShape k elems) (relShape j []) (ddLen j)
        = relShape (j + k) elems := by
  induction k with
  | zero =>
      intro gas j elems he hlen
      rw [relShape_zero] at hlen ⊢
      rw [cleanLoopF_rel_elems elems gas j [] he (by intro e h; cases h) hlen]
      simp
  | succ k ih =>
      intro gas j elems he hlen
      have hshape : relShape (k + 1) elems
          = '.' :: '.' :: sepJoin (List.replicate k ['.', '.'] ++ elems) := by
        unfold relShape
        rw [List.replicate_succ]
        rfl
      obtain ⟨g, rfl⟩ : ∃ g, gas = g + 1 := by
        refine ⟨gas - 1, ?_⟩
        rw [hshape] at hlen
        simp at hlen
        omega
      rw [hshape, cleanLoopF]
      rw [if_neg (by decide), if_neg ?g2, if_pos ?g3]
      case g2 =>
        rintro ⟨-, h | h⟩
        · simp at h
        · simp [isSep] at h
      case g3 =>
        refine ⟨rfl, by simp, ?_⟩
        cases hx : List.replicate k ['.', '.'] ++ elems with
        | nil => left; simp [hx, sepJoin]
        | cons x xs => right; simp [hx, sepJoin, isSep]
      rw [if_neg (by unfold ddLen; exact lt_irrefl _), if_pos (by simp)]
      simp only [List.tail_cons]
      rw [← relShape_succ_nil j]
      rw [hshape] at hlen
      cases hx : List.replicate k ['.', '.'] ++ elems with
      | nil =>
          obtain ⟨h1, h2⟩ := List.append_eq_nil.mp hx
          have hk : k = 0 := by simpa using congrArg List.length h1
          subst hk
          subst h2
          rw [show sepJoin ([] : List (List Char)) = [] from rfl, cleanLoopF_nil]
      | cons x xs =>
          have ht : sepJoin (x :: xs) = '/' :: relShape k elems := by
            rw [sepJoin_cons_eq, ← hx]
            rfl
          have hlen2 : (relShape k elems).length + 3 ≤ g + 1 := by
            rw [hx, ht] at hlen
            simp at hlen
            omega
          rw [ht]
          obtain ⟨g', rfl⟩ : ∃ g', g = g' + 1 := ⟨g - 1, by omega⟩
          rw [cleanLoopF_sep]
          rw [show (relShape (j + 1) []).length = ddLen (j + 1) from rfl]
          rw [ih g' (j + 1) elems he (by omega)]
          rw [show j + 1 + k = j + (k + 1) by omega]

/-- The POSIX instance of `vCleanList`: no volume, `FromSlash` is the
identity. -/
theorem vCleanList_unix (p : List Char) :
    vCleanList true '/' p =
      if p = [] then ['.']
      else if (if isSep '/' (p.headD '/') = true then cleanLoop '/' true p.tail ['/'] 1
               else cleanLoop '/' false p [] 0) = [] then ['.']
      else (if isSep '/' (p.headD '/') = true then cleanLoop '/' true p.tail ['/'] 1
            else cleanLoop '/' false p [] 0) := by
  unfold vCleanList vVolumeNameLen vFromSlash
  by_cases hp : p = []
  · subst hp
    simp
  · simp [hp, cleanLoop]

/-- A `.` element alone cleans to itself. -/
theorem clean_fixes_dot : vCleanList true '/' ['.'] = ['.'] := by decide

/-- A rooted normal form cleans to itself. -/
theorem clean_fixes_rooted (elems : List (List Char)) (he : GoodComps elems) :
    vCleanList true '/' ('/' :: joinComps elems) = '/' :: joinComps elems := by
  rw [vCleanList_unix, if_neg (by simp)]
  have hr : isSep '/' (('/' :: joinComps elems).headD '/') = true := by simp [isSep]
  rw [if_pos hr]
  simp only [List.tail_cons]
  rw [cleanLoop]
  have hfix := cleanLoopF_root_elems elems (joinComps elems).length [] he
    (by intro e h; cases h) (Nat.le_refl _)
  rw [show ('/' :: joinComps ([] : List (List Char))) = ['/'] from rfl] at hfix
  rw [hfix]
  simp

/-- A relative normal form cleans to itself. -/
theorem clean_fixes_rel (k : Nat) (elems : List (List Char)) (he : GoodComps elems)
    (hne : ¬ (k = 0 ∧ elems = [])) :
    vCleanList true '/' (relShape k elems) = relShape k elems := by
  have hnil : relShape k elems ≠ [] := by
    rw [Ne, relShape_eq_nil_iff k elems he]
    exact hne
  have hhead : (relShape k elems).headD '/' ≠ '/' := by
    cases k with
    | zero =>
        cases helems : elems with
        | nil => exact absurd ⟨rfl, helems⟩ hne
        | cons e es =>
            have hg : GoodElem e := he e (by rw [helems]; simp)
            obtain ⟨c, e', rfl⟩ : ∃ c e', e = c :: e' := by
              cases e with
              | nil => exact absurd rfl hg.1
              | cons c e' => exact ⟨c, e', rfl⟩
            have hc : c ≠ '/' := fun h => hg.2.1 (by simp [h])
            simpa [relShape, joinComps] using hc
    | succ k' =>
        rw [show relShape (k' + 1) elems
            = '.' :: '.' :: sepJoin (List.replicate k' ['.', '.'] ++ elems) by
          unfold relShape
          rw [List.replicate_succ]
          rfl]
        simp
  rw [vCleanList_unix, if_neg hnil]
  have hr : isSep '/' ((relShape k elems).headD '/') = false := by
    unfold isSep
    exact decide_eq_false (fun h => hhead h.symm)
  have hcond : (if isSep '/' ((relShape k elems).headD '/') = true
      then cleanLoop '/' true (relShape k elems).tail ['/'] 1
      else cleanLoop '/' false (relShape k elems) [] 0)
      = cleanLoop '/' false (relShape k elems) [] 0 :=
    if_neg (fun h => Bool.false_ne_true (hr ▸ h))
  rw [hcond, cleanLoop]
  have hfix := cleanLoopF_rel_dd k (relShape k elems).length 0 elems he (Nat.le_refl _)
  rw [show relShape 0 [] = ([] : List Char) from rfl, show ddLen 0 = 0 from rfl,
      Nat.zero_add] at hfix
  rw [hfix, if_neg hnil]

/-- The `.`-element step of the scanning loop. -/
theorem cleanLoopF_dot (rooted : Bool) (gas : Nat) (c : Char) (rest out : List Char)
    (dotdot : Nat) (h1 : ¬ isSep '/' c = true)
    (h2 : c = '.' ∧ (rest = [] ∨ isSep '/' (rest.headD '/') = true)) :
    cleanLoopF '/' rooted (gas + 1) (c :: rest) out dotdot
      = cleanLoopF '/' rooted gas rest out dotdot := by
  rw [cleanLoopF, if_neg (by simpa using h1), if_pos (by simpa using h2)]

/-- The `..`-element step of the scanning loop, inner cases untouched. -/
theorem cleanLoopF_dd (rooted : Bool) (gas : Nat) (c : Char) (rest out : List Char)
    (dotdot : Nat) (h1 : ¬ isSep '/' c = true)
    (h2 : ¬ (c = '.' ∧ (rest = [] ∨ isSep '/' (rest.headD '/') = true)))
    (h3 : c = '.' ∧ rest.headD '/' = '.' ∧
        (rest.tail = [] ∨ isSep '/' (rest.tail.headD '/') = true)) :
    cleanLoopF '/' rooted (gas + 1) (c :: rest) out dotdot
      = (if dotdot < out.length then
           cleanLoopF '/' rooted gas rest.tail
             (out.take (btLoop '/' out dotdot (out.length - 1))) dotdot
         else if ¬ rooted then
           cleanLoopF '/' rooted gas rest.tail
             ((if out.length > 0 then out ++ ['/'] else out) ++ ['.', '.'])
             (((if out.length > 0 then out ++ ['/'] else out) ++ ['.', '.']).length)
         else cleanLoopF '/' rooted gas rest.tail out dotdot) := by
  rw [cleanLoopF, if_neg (by simpa using h1), if_neg (by simpa using h2),
      if_pos (by simpa using h3)]

/-- The real-element step of the scanning loop. -/
theorem cleanLoopF_default (rooted : Bool) (gas : Nat) (c : Char) (rest out : List Char)
    (dotdot : Nat) (h1 : ¬ isSep '/' c = true)
    (h2 : ¬ (c = '.' ∧ (rest = [] ∨ isSep '/' (rest.headD '/') = true)))
    (h3 : ¬ (c = '.' ∧ rest.headD '/' = '.' ∧
        (rest.tail = [] ∨ isSep '/' (rest.tail.headD '/') = true))) :
    cleanLoopF '/' rooted (gas + 1) (c :: rest) out dotdot
      = cleanLoopF '/' rooted gas (rest.dropWhile (fun d => ¬ isSep '/' d))
          ((if (rooted ∧ out.length ≠ 1) ∨ (¬ rooted ∧ out.length ≠ 0) then out ++ ['/']
            else out) ++ c :: rest.takeWhile (fun d => ¬ isSep '/' d)) dotdot := by
  rw [cleanLoopF, if_neg (by simpa using h1), if_neg (by simpa using h2),
      if_neg (by simpa using h3)]

/-- In the default case the extracted element is regular. -/
theorem goodElem_of_default (c : Char) (rest : List Char)
    (h1 : ¬ isSep '/' c = true)
    (h2 : ¬ (c = '.' ∧ (rest = [] ∨ isSep '/' (rest.headD '/') = true)))
    (h3 : ¬ (c = '.' ∧ rest.headD '/' = '.' ∧
        (rest.tail = [] ∨ isSep '/' (rest.tail.headD '/') = true))) :
    GoodElem (c :: rest.takeWhile (fun d => ¬ isSep '/' d)) := by
  have hc : c ≠ '/' := by
    intro h
    exact h1 (by simp [isSep, h])
  refine ⟨by simp, ?_, ?_, ?_⟩
  · intro hmem
    rcases List.mem_cons.mp hmem with h | h
    · exact hc h.symm
    · have := List.mem_takeWhile_imp h
      simp [isSep] at this
  · intro heq
    obtain ⟨hcdot, htw⟩ : c = '.' ∧ rest.takeWhile (fun d => ¬ isSep '/' d) = [] := by
      constructor
      · exact (List.cons.injEq _ _ _ _ ▸ heq).1
      · exact (List.cons.injEq _ _ _ _ ▸ heq).2
    apply h2
    refine ⟨hcdot, ?_⟩
    cases hr : rest with
    | nil => exact Or.inl rfl
    | cons r rs =>
        right
        rw [hr] at htw
        by_cases hp : isSep '/' r = true
        · simpa [hr] using hp
        · simp [List.takeWhile, hp] at htw
  · intro heq
    obtain ⟨hcdot, htw⟩ : c = '.' ∧ rest.takeWhile (fun d => ¬ isSep '/' d) = ['.'] := by
      constructor
      · exact (List.cons.injEq _ _ _ _ ▸ heq).1
      · exact (List.cons.injEq _ _ _ _ ▸ heq).2
    apply h3
    cases hr : rest with
    | nil => rw [hr] at htw; simp [List.takeWhile] at htw
    | cons r rs =>
        rw [hr] at htw
        by_cases hp : isSep '/' r = true
        · simp [List.takeWhile, hp] at htw
        · simp only [List.takeWhile, hp] at htw
          have hr' : r = '.' := (List.cons.injEq _ _ _ _ ▸ htw).1
          have hrs : rs.takeWhile (fun d => ¬ isSep '/' d) = [] :=
            (List.cons.injEq _ _ _ _ ▸ htw).2
          refine ⟨hcdot, by simp [hr'], ?_⟩
          cases hrs2 : rs with
          | nil => exact Or.inl (by simp)
          | cons s ss =>
              right
              rw [hrs2] at hrs
              by_cases hps : isSep '/' s = true
              · simpa [hrs2] using hps
              · simp [List.takeWhile, hps] at hrs

/-- Rooted soundness: whatever input the loop scans, a rooted buffer stays a
rooted normal form. -/
theorem cleanLoopF_root_sound (gas : Nat) :
    ∀ (input : List Char) (done : List (List Char)), GoodComps done →
      ∃ done', GoodComps done' ∧
        cleanLoopF '/' true gas input ('/' :: joinComps done) 1 = '/' :: joinComps done' := by
  induction gas with
  | zero => exact fun input done hd => ⟨done, hd, rfl⟩
  | succ g ih =>
      intro input done hd
      cases input with
      | nil => exact ⟨done, hd, rfl⟩
      | cons c rest =>
          by_cases h1 : isSep '/' c = true
          · obtain ⟨c, rfl⟩ : c = '/' := by simpa [isSep, eq_comm] using h1
            obtain ⟨done', hd', heq⟩ := ih rest done hd
            exact ⟨done', hd', by rw [cleanLoopF_sep]; exact heq⟩
          · by_cases h2 : c = '.' ∧ (rest = [] ∨ isSep '/' (rest.headD '/') = true)
            · obtain ⟨done', hd', heq⟩ := ih rest done hd
              exact ⟨done', hd', by rw [cleanLoopF_dot _ _ _ _ _ _ h1 h2]; exact heq⟩
            · by_cases h3 : c = '.' ∧ rest.headD '/' = '.' ∧
                  (rest.tail = [] ∨ isSep '/' (rest.tail.headD '/') = true)
              · by_cases hbt : 1 < ('/' :: joinComps done).length
                · have hdone : done ≠ [] := by
                    intro h
                    subst h
                    simp [joinComps] at hbt
                  rcases List.eq_nil_or_concat' done with h | ⟨done₁, el, rfl⟩
                  · exact absurd h hdone
                  · have hgel : GoodElem el := hd el (by simp)
                    have hd₁ : GoodComps done₁ := fun x hx => hd x (by simp [hx])
                    have htake : ('/' :: joinComps (done₁ ++ [el])).take
                        (btLoop '/' ('/' :: joinComps (done₁ ++ [el])) 1
                          (('/' :: joinComps (done₁ ++ [el])).length - 1))
                        = '/' :: joinComps done₁ := by
                      by_cases hd1 : done₁ = []
                      · subst hd1
                        rw [show joinComps ([] ++ [el]) = el by simp [joinComps_singleton]]
                        have hns : ∀ i, 1 < i → i ≤ ('/' :: el).length - 1 →
                            ('/' :: el).getD i '/' ≠ '/' := by
                          intro i hi hiw
                          have h4 : i - 1 < el.length := by simp at hiw; omega
                          rw [show i = (i - 1) + 1 by omega, List.getD_cons_succ,
                              List.getD_eq_getElem el '/' h4]
                          intro hcontra
                          exact hgel.2.1 (hcontra ▸ List.getElem_mem h4)
                        rw [btLoop_all_nonsep _ _ _ hns]
                        have hlel : 1 ≤ el.length := by
                          cases hel : el with
                          | nil => exact absurd hel hgel.1
                          | cons a l => simp
                        simp only [List.length_cons]
                        split_ifs with hle
                        · have : el.length = 1 := by omega
                          rw [show el.length + 1 - 1 = 1 by omega]
                          cases el with
                          | nil => simp at hlel
                          | cons a l => simp [joinComps]
                        · rw [show ('/' :: el).take 1 = ['/'] from rfl]
                          simp [joinComps]
                      · rw [joinComps_of_append_single, if_neg hd1,
                            show ('/' :: (joinComps done₁ ++ '/' :: el))
                              = ('/' :: joinComps done₁) ++ '/' :: el from rfl]
                        exact backtrack_removes_last ('/' :: joinComps done₁) el 1
                          hgel.2.1 (by simp)
                    obtain ⟨done', hd', heq⟩ := ih rest.tail done₁ hd₁
                    refine ⟨done', hd', ?_⟩
                    rw [cleanLoopF_dd _ _ _ _ _ _ h1 h2 h3, if_pos hbt, htake]
                    exact heq
                · obtain ⟨done', hd', heq⟩ := ih rest.tail done hd
                  refine ⟨done', hd', ?_⟩
                  rw [cleanLoopF_dd _ _ _ _ _ _ h1 h2 h3, if_neg hbt, if_neg (by simp)]
                  exact heq
              · have hgel := goodElem_of_default c rest h1 h2 h3
                have hd' : GoodComps (done ++ [c :: rest.takeWhile (fun d => ¬ isSep '/' d)]) := by
                  intro x hx
                  rcases List.mem_append.mp hx with h | h
                  · exact hd x h
                  · rw [List.mem_singleton.mp h]
                    exact hgel
                obtain ⟨done', hdg, heq⟩ := ih (rest.dropWhile (fun d => ¬ isSep '/' d)) _ hd'
                refine ⟨done', hdg, ?_⟩
                rw [cleanLoopF_default _ _ _ _ _ _ h1 h2 h3]
                have hout2 : ((if (true = true ∧ ('/' :: joinComps done).length ≠ 1) ∨
                      (¬ true = true ∧ ('/' :: joinComps done).length ≠ 0) then
                      ('/' :: joinComps done) ++ ['/'] else ('/' :: joinComps done))
                    ++ c :: rest.takeWhile (fun d => ¬ isSep '/' d))
                    = '/' :: joinComps (done ++ [c :: rest.takeWhile (fun d => ¬ isSep '/' d)]) := by
                  by_cases hdone : done = []
                  · subst hdone
                    rw [if_neg (by simp [joinComps])]
                    simp [joinComps, joinComps_singleton, sepJoin]
                  · have hjne : joinComps done ≠ [] :=
                      joinComps_ne_nil done (fun x hx => (hd x hx).1) hdone
                    rw [if_pos (by simp; intro h; exact absurd h hjne)]
                    rw [joinComps_of_append_single, if_neg hdone]
                    simp
                rw [hout2]
                exact heq

/-- Relative soundness: whatever input the loop scans, a relative buffer
stays a relative normal form. -/
theorem cleanLoopF_rel_sound (gas : Nat) :
    ∀ (input : List Char) (j : Nat) (done : List (List Char)), GoodComps done →
      ∃ j' done', GoodComps done' ∧
        cleanLoopF '/' false gas input (relShape j done) (ddLen j) = relShape j' done' := by
  induction gas with
  | zero => exact fun input j done hd => ⟨j, done, hd, rfl⟩
  | succ g ih =>
      intro input j done hd
      cases input with
      | nil => exact ⟨j, done, hd, rfl⟩
      | cons c rest =>
          by_cases h1 : isSep '/' c = true
          · obtain ⟨c, rfl⟩ : c = '/' := by simpa [isSep, eq_comm] using h1
            obtain ⟨j', done', hd', heq⟩ := ih rest j done hd
            exact ⟨j', done', hd', by rw [cleanLoopF_sep]; exact heq⟩
          · by_cases h2 : c = '.' ∧ (rest = [] ∨ isSep '/' (rest.headD '/') = true)
            · obtain ⟨j', done', hd', heq⟩ := ih rest j done hd
              exact ⟨j', done', hd', by rw [cleanLoopF_dot _ _ _ _ _ _ h1 h2]; exact heq⟩
            · by_cases h3 : c = '.' ∧ rest.headD '/' = '.' ∧
                  (rest.tail = [] ∨ isSep '/' (rest.tail.headD '/') = true)
              · by_cases hbt : ddLen j < (relShape j done).length
                · have hdone : done ≠ [] := by
                    intro h
                    subst h
                    unfold ddLen at hbt
                    exact lt_irrefl _ hbt
                  rcases List.eq_nil_or_concat' done with h | ⟨done₁, el, rfl⟩
                  · exact absurd h hdone
                  · have hgel : GoodElem el := hd el (by simp)
                    have hd₁ : GoodComps done₁ := fun x hx => hd x (by simp [hx])
                    have htake : (relShape j (done₁ ++ [el])).take
                        (btLoop '/' (relShape j (done₁ ++ [el])) (ddLen j)
                          ((relShape j (done₁ ++ [el])).length - 1))
                        = relShape j done₁ := by
                      by_cases hempty : j = 0 ∧ done₁ = []
                      · obtain ⟨rfl, rfl⟩ := hempty
                        rw [show relShape 0 ([] ++ [el]) = el by
                          simp [relShape, joinComps_singleton]]
                        rw [show ddLen 0 = 0 from rfl]
                        rw [backtrack_clears el hgel.2.1]
                        rfl
                      · rw [relShape_append_single j done₁ el hempty]
                        have hddle : ddLen j ≤ (relShape j done₁).length := by
                          by_cases hj : j = 0
                          · subst hj
                            exact Nat.zero_le _
                          · have hrepne : List.replicate j ['.', '.'] ≠ ([] : List (List Char)) := by
                              intro h
                              exact hj (by simpa using congrArg List.length h)
                            have heq1 : relShape j done₁
                                = joinComps (List.replicate j ['.', '.']) ++ sepJoin done₁ := by
                              unfold relShape
                              exact joinComps_append_sepJoin _ _ hrepne
                            have heq2 : ddLen j
                                = (joinComps (List.replicate j ['.', '.'])).length := by
                              unfold ddLen relShape
                              simp
                            rw [heq1, heq2]
                            simp
                        exact backtrack_removes_last (relShape j done₁) el (ddLen j)
                          hgel.2.1 hddle
                    obtain ⟨j', done', hd', heq⟩ := ih rest.tail j done₁ hd₁
                    refine ⟨j', done', hd', ?_⟩
                    rw [cleanLoopF_dd _ _ _ _ _ _ h1 h2 h3, if_pos hbt, htake]
                    exact heq
                · obtain ⟨j', done', hd', heq⟩ := ih rest.tail (j + 1) [] (by intro x hx; cases hx)
                  refine ⟨j', done', hd', ?_⟩
                  rw [cleanLoopF_dd _ _ _ _ _ _ h1 h2 h3, if_neg hbt, if_pos (by simp)]
                  have hdone : done = [] := by
                    by_contra hne
                    apply hbt
                    by_cases hj : j = 0
                    · subst hj
                      rw [show ddLen 0 = 0 from rfl, relShape_zero]
                      have hjne := joinComps_ne_nil done (fun x hx => (hd x hx).1) hne
                      cases h : joinComps done with
                      | nil => exact absurd h hjne
                      | cons a l => simp
                    · have hjoin : relShape j done
                          = joinComps (List.replicate j ['.', '.']) ++ sepJoin done := by
                        unfold relShape
                        exact joinComps_append_sepJoin _ _ (by
                          intro h
                          exact hj (by simpa using congrArg List.length h))
                      have hpos := sepJoin_length_pos done hne
                      have hdd : ddLen j = (joinComps (List.replicate j ['.', '.'])).length := by
                        unfold ddLen relShape
                        simp
                      rw [hjoin, hdd]
                      simp
                      omega
                  subst hdone
                  rw [← relShape_succ_nil j,
                      show (relShape (j + 1) []).length = ddLen (j + 1) from rfl]
                  exact heq
              · have hgel := goodElem_of_default c rest h1 h2 h3
                have hd' : GoodComps (done ++ [c :: rest.takeWhile (fun d => ¬ isSep '/' d)]) := by
                  intro x hx
                  rcases List.mem_append.mp hx with h | h
                  · exact hd x h
                  · rw [List.mem_singleton.mp h]
                    exact hgel
                obtain ⟨j', done', hdg, heq⟩ :=
                  ih (rest.dropWhile (fun d => ¬ isSep '/' d)) j _ hd'
                refine ⟨j', done', hdg, ?_⟩
                rw [cleanLoopF_default _ _ _ _ _ _ h1 h2 h3]
                have hout2 : ((if (false = true ∧ (relShape j done).length ≠ 1) ∨
                      (¬ false = true ∧ (relShape j done).length ≠ 0) then
                      relShape j done ++ ['/'] else relShape j done)
                    ++ c :: rest.takeWhile (fun d => ¬ isSep '/' d))
                    = relShape j (done ++ [c :: rest.takeWhile (fun d => ¬ isSep '/' d)]) := by
                  by_cases hempty : j = 0 ∧ done = []
                  · obtain ⟨rfl, rfl⟩ := hempty
                    rw [if_neg (by simp [relShape, joinComps])]
                    simp [relShape, joinComps, joinComps_singleton, sepJoin]
                  · have hne : relShape j done ≠ [] := by
                      intro h
                      exact hempty ((relShape_eq_nil_iff j done hd).mp h)
                    rw [if_pos (by simp; intro h; exact absurd h hne)]
                    rw [relShape_append_single j done _ hempty]
                    simp
                rw [hout2]
                exact heq

/-- Every cleaned POSIX path is `"."`, a rooted normal form, or a non-trivial
relative normal form. -/
theorem vCleanList_unix_shape (p : List Char) :
    vCleanList true '/' p = ['.'] ∨
    (∃ elems, GoodComps elems ∧ vCleanList true '/' p = '/' :: joinComps elems) ∨
    (∃ k elems, GoodComps elems ∧ ¬ (k = 0 ∧ elems = []) ∧
        vCleanList true '/' p = relShape k elems) := by
  by_cases hp : p = []
  · subst hp
    left
    decide
  · rw [vCleanList_unix, if_neg hp]
    by_cases hr : isSep '/' (p.headD '/') = true
    · obtain ⟨done', hd', heq⟩ := cleanLoopF_root_sound p.tail.length p.tail []
        (by intro x hx; cases hx)
      rw [show ('/' :: joinComps ([] : List (List Char))) = ['/'] from rfl] at heq
      right; left
      refine ⟨done', hd', ?_⟩
      rw [if_pos hr, cleanLoop, heq, if_neg (by simp)]
    · obtain ⟨j', done', hd', heq⟩ := cleanLoopF_rel_sound p.length p 0 []
        (by intro x hx; cases hx)
      rw [show relShape 0 ([] : List (List Char)) = ([] : List Char) from rfl,
          show ddLen 0 = 0 from rfl] at heq
      have hcond : (if isSep '/' (p.headD '/') = true
          then cleanLoop '/' true p.tail ['/'] 1
          else cleanLoop '/' false p [] 0) = cleanLoop '/' false p [] 0 := if_neg hr
      by_cases hres : relShape j' done' = []
      · left
        rw [hcond, cleanLoop, heq, hres, if_pos rfl]
      · right; right
        refine ⟨j', done', hd', ?_, ?_⟩
        · rintro ⟨hj0, hd0⟩
          apply hres
          rw [hj0, hd0]
          rfl
        · rw [hcond, cleanLoop, heq, if_neg hres]

/-- Idempotence of the POSIX `clean` at the character-list level. -/
theorem vCleanList_unix_idempotent (p : List Char) :
    vCleanList true '/' (vCleanList true '/' p) = vCleanList true '/' p := by
  rcases vCleanList_unix_shape p with h | ⟨elems, he, h⟩ | ⟨k, elems, he, hne, h⟩
  · rw [h, clean_fixes_dot]
  · rw [h, clean_fixes_rooted elems he]
  · rw [h, clean_fixes_rel k elems he hne]

/-! ## C8 — the claim and its correction -/

/-- Claim C8, counterexample: in the Windows configuration (`IsUnix` false,
separator `'\'`), `clean` is not idempotent.  `IsPathSeparator` recognises
only `'\'`, so `clean "a/./b"` treats the whole string as one element and
merely rewrites the slashes via the final `FromSlash`, yielding `a\.\b`;
cleaning that again now sees three elements, drops the `.`, and yields
`a\b`. -/
theorem clean_windows_not_idempotent :
    vClean false '\\' "a/./b" = "a\\.\\b" ∧
    vClean false '\\' (vClean false '\\' "a/./b") = "a\\b" ∧
    vClean false '\\' (vClean false '\\' "a/./b") ≠ vClean false '\\' "a/./b" := by
  refine ⟨by decide, by decide, by decide⟩

/-- Claim C8, amended: for the POSIX-configured virtual path engine
(`IsUnix`, separator `'/'`) `clean` is idempotent on every input string; the
Windows configuration fails idempotence because characters `'/'` inside a
path element are rewritten to the separator by the final `FromSlash` and are
only recognised as separators on a second pass. -/
theorem clean_posix_idempotent (p : String) :
    vClean true '/' (vClean true '/' p) = vClean true '/' p := by
  unfold vClean
  rw [show (String.mk (vCleanList true '/' p.data)).data
      = vCleanList true '/' p.data from rfl]
  rw [vCleanList_unix_idempotent]

end Socker
